import Mathlib

set_option maxHeartbeats 1000000

/-!
Shallow embedding of the Notebook-Library core (micropad data model):
the persistent Notepad/Section/Note tree, its flattening to `FlatNotepad`,
and the `Trie` search index from `SearchIndex.ts`.

Two views of the tree code are embedded:

* a *value* (tree) layer, used for `flatten`, the flat⇄tree round trip and
  the asset invariant; and
* a *heap* layer with explicit addresses, used for the claims about object
  identity and in-place mutation (`addSection` assigns `section.parent`).

Classes whose source file is not part of the repository snapshot
(`Note`, `Section`, `FlatNotepad`, `Asset`) are modelled from the spec;
each such definition says so in its doc comment.
-/

/-- Modelled from the spec: `Asset` (class file absent) — identity (uuid)
plus an opaque binary payload referenced from note content. -/
structure Asset where
  uuid : String
  blob : String
deriving DecidableEq

/-- Modelled from the spec: `NoteElement` (from the absent `Note.ts`) — a
content block with a type tag, textual content and positional metadata. -/
structure NoteElement where
  type : String
  content : String
  args : List (String × String)
deriving DecidableEq

/-- Modelled from the spec: a bibliography `Source` entry of a Note. -/
structure Source where
  id : Nat
  item : String
  content : String
deriving DecidableEq

/-- Modelled from the spec: `Note` (class file absent) — title, timestamp,
ordered elements, ordered bibliography, stable identifier and a weak
back-reference to the owning Section, recorded as that Section's
`internalRef`. -/
structure Note where
  title : String
  time : Nat
  elements : List NoteElement
  bibliography : List Source
  internalRef : String
  parent : Option String
deriving DecidableEq

/-- A parent back-reference as read by `flatten`: either the Notepad root
(which carries no `internalRef`) or a Section identified by its
`internalRef`. -/
inductive PLink where
  | toNotepad : PLink
  | toSection : String → PLink
deriving DecidableEq

/-- Modelled from the spec: `Section` (class file absent) — an internal tree
node: title, stable identifier, ordered child Sections, ordered child Notes
and a weak parent back-reference. -/
inductive Section where
  | mk : String → String → List Section → List Note → Option PLink → Section

mutual

/-- Structural equality test for the nested `Section` inductive. -/
def Section.beq : Section → Section → Bool
  | .mk t r ss ns p, .mk t' r' ss' ns' p' =>
    t == t' && r == r' && Section.beqList ss ss' && ns == ns' && p == p'

def Section.beqList : List Section → List Section → Bool
  | [], [] => true
  | s :: rest, s' :: rest' => Section.beq s s' && Section.beqList rest rest'
  | _, _ => false

end

mutual

theorem Section.beq_iff : ∀ (a b : Section), (Section.beq a b = true) ↔ a = b
  | .mk t r ss ns p, .mk t' r' ss' ns' p' => by
    have h := Section.beqList_iff ss ss'
    simp only [Section.beq, Section.mk.injEq, Bool.and_eq_true, beq_iff_eq, h]
    tauto

theorem Section.beqList_iff : ∀ (a b : List Section), (Section.beqList a b = true) ↔ a = b
  | [], [] => by simp [Section.beqList]
  | [], _ :: _ => by simp [Section.beqList]
  | _ :: _, [] => by simp [Section.beqList]
  | s :: rest, s' :: rest' => by
    have h1 := Section.beq_iff s s'
    have h2 := Section.beqList_iff rest rest'
    simp [Section.beqList, h1, h2]

end

instance : DecidableEq Section :=
  fun a b => decidable_of_iff (Section.beq a b = true) (Section.beq_iff a b)

def Section.title : Section → String
  | .mk t _ _ _ _ => t

def Section.internalRef : Section → String
  | .mk _ r _ _ _ => r

def Section.sections : Section → List Section
  | .mk _ _ ss _ _ => ss

def Section.notes : Section → List Note
  | .mk _ _ _ ns _ => ns

def Section.parent : Section → Option PLink
  | .mk _ _ _ _ p => p

def Section.setParent : Section → Option PLink → Section
  | .mk t r ss ns _, p => .mk t r ss ns p

/-- The root aggregate from `Notepad` (src/unnamed/part_000): title,
last-modified timestamp, ordered top-level sections, the in-use asset
identifier list and the asset list. -/
structure Notepad where
  title : String
  lastModified : String
  sections : List Section
  notepadAssets : List String
  assets : List Asset
deriving DecidableEq

/-- The optional overrides accepted by `Notepad.clone` (`NotepadOptions`). -/
structure NotepadOptions where
  lastModified : Option String
  sections : Option (List Section)
  notepadAssets : Option (List String)
  assets : Option (List Asset)

/-- `Notepad.clone`: a fresh Notepad taking each field from the options when
present and from `this` otherwise (`parse`/`format` of a well-formed
`lastModified` string round-trips, so it is carried over unchanged). -/
def Notepad.clone (p : Notepad) (o : NotepadOptions) : Notepad :=
  { title := p.title
    lastModified := o.lastModified.getD p.lastModified
    sections := o.sections.getD p.sections
    notepadAssets := o.notepadAssets.getD p.notepadAssets
    assets := o.assets.getD p.assets }

/-- `Notepad.addSection` (value view): clone with the section appended; the
subsequent `section.parent = notepad` assignment makes the stored child's
back-reference denote the new root. -/
def Notepad.addSection (p : Notepad) (s : Section) : Notepad :=
  p.clone ⟨none, some (p.sections ++ [s.setParent (some .toNotepad)]), none, none⟩

/-- `Notepad.addAsset`: clone with the asset appended to `assets` and its
uuid appended to `notepadAssets`. -/
def Notepad.addAsset (p : Notepad) (a : Asset) : Notepad :=
  p.clone ⟨none, none, some (p.notepadAssets ++ [a.uuid]), some (p.assets ++ [a])⟩

/-- `Notepad.modified`: clone with a new `lastModified` value. -/
def Notepad.modified (p : Notepad) (d : String) : Notepad :=
  p.clone ⟨some d, none, none, none⟩

/-- Modelled from the spec: `Section.addSection` (class file absent) —
append the child and set its parent back-reference to this section. -/
def Section.addSection (self child : Section) : Section :=
  .mk self.title self.internalRef
    (self.sections ++ [child.setParent (some (.toSection self.internalRef))])
    self.notes self.parent

/-- Modelled from the spec: `Section.addNote` (class file absent) — append
the note and set its parent back-reference to this section. -/
def Section.addNote (self : Section) (n : Note) : Section :=
  .mk self.title self.internalRef self.sections
    (self.notes ++ [{ n with parent := some self.internalRef }]) self.parent

/-- Modelled from the spec: `Note.addElement` (class file absent) — a pure
append producing a new Note. -/
def Note.addElement (n : Note) (e : NoteElement) : Note :=
  { n with elements := n.elements ++ [e] }

/-- Modelled from the spec: `Note.addSource` (class file absent) — a pure
append producing a new Note. -/
def Note.addSource (n : Note) (s : Source) : Note :=
  { n with bibliography := n.bibliography ++ [s] }

/-! ## Heap layer

Object identity for the claims about purity and back-references: a heap maps
numeric addresses to objects; `Notepad.addSection` allocates the clone and
then mutates the argument section's `parent` field in place. -/

/-- A heap-resident Notepad: child sections held by address. -/
structure NotepadObj where
  title : String
  lastModified : String
  sections : List Nat
  notepadAssets : List String
  assets : List Asset
deriving DecidableEq

/-- A heap-resident Section: children and the parent back-reference held by
address (the parent may be a Notepad or a Section). -/
structure SectionObj where
  title : String
  internalRef : String
  sections : List Nat
  notes : List Nat
  parent : Option Nat
deriving DecidableEq

/-- A heap-resident Note: the parent back-reference held by address. -/
structure NoteObj where
  title : String
  time : Nat
  elements : List NoteElement
  bibliography : List Source
  internalRef : String
  parent : Option Nat
deriving DecidableEq

/-- A heap object: a Notepad, a Section or a Note. -/
inductive Obj where
  | notepad : NotepadObj → Obj
  | sec : SectionObj → Obj
  | note : NoteObj → Obj
deriving DecidableEq

/-- A heap: an address-keyed store plus the next fresh address. -/
structure Heap where
  mem : List (Nat × Obj)
  next : Nat
deriving DecidableEq

def Heap.get (h : Heap) (a : Nat) : Option Obj :=
  (h.mem.find? (fun kv => kv.1 == a)).map Prod.snd

/-- Replace the (first) binding of an existing address. -/
def setMem : List (Nat × Obj) → Nat → Obj → List (Nat × Obj)
  | [], _, _ => []
  | (k, v) :: rest, a, o => if k == a then (k, o) :: rest else (k, v) :: setMem rest a o

def Heap.set (h : Heap) (a : Nat) (o : Obj) : Heap :=
  { h with mem := setMem h.mem a o }

/-- Allocate a fresh object, returning its address. -/
def Heap.alloc (h : Heap) (o : Obj) : Heap × Nat :=
  (⟨h.mem ++ [(h.next, o)], h.next + 1⟩, h.next)

/-- Every allocated address is below the fresh-address counter. -/
def Heap.wfB (h : Heap) : Bool :=
  h.mem.all (fun kv => decide (kv.1 < h.next))

/-- `Notepad.addSection`, heap view: read the receiver, allocate the clone
with the section's address appended, then assign the section object's
`parent` field to the new notepad's address (`section.parent = notepad`). -/
def Heap.addSection (h : Heap) (self sAddr : Nat) : Option (Heap × Nat) :=
  match h.get self with
  | some (.notepad np) =>
    let res := h.alloc (.notepad { np with sections := np.sections ++ [sAddr] })
    match res.1.get sAddr with
    | some (.sec so) =>
      some (res.1.set sAddr (.sec { so with parent := some res.2 }), res.2)
    | _ => none
  | _ => none

/-- `Notepad.addAsset`, heap view: allocate the clone with the asset and its
uuid appended; no existing object is written. -/
def Heap.addAsset (h : Heap) (self : Nat) (a : Asset) : Option (Heap × Nat) :=
  match h.get self with
  | some (.notepad np) =>
    some (h.alloc (.notepad { np with
      assets := np.assets ++ [a]
      notepadAssets := np.notepadAssets ++ [a.uuid] }))
  | _ => none

/-- Modelled from the spec: `Section.addNote`, heap view (class file
absent) — the analogous append at the Note level: allocate the cloned
section with the note's address appended, then assign the note object's
parent back-reference to the new section's address. -/
def Heap.addNote (h : Heap) (self nAddr : Nat) : Option (Heap × Nat) :=
  match h.get self with
  | some (.sec so) =>
    let res := h.alloc (.sec { so with notes := so.notes ++ [nAddr] })
    match res.1.get nAddr with
    | some (.note no) =>
      some (res.1.set nAddr (.note { no with parent := some res.2 }), res.2)
    | _ => none
  | _ => none

/-! ### Heap lemmas -/

theorem Heap.get_alloc_other (h : Heap) (o : Obj) (a : Nat) (ha : a ≠ h.next) :
    (h.alloc o).1.get a = h.get a := by
  obtain ⟨mem, nxt⟩ := h
  simp only [Heap.alloc, Heap.get] at *
  induction mem with
  | nil =>
    have hba : (nxt == a) = false := by simpa using Ne.symm ha
    simp [List.find?, hba]
  | cons kv rest ih =>
    by_cases hk : kv.1 == a
    · simp [List.find?, hk]
    · simp only [List.cons_append, List.find?, hk] at *
      exact ih

theorem Heap.find?_none_of_wf (h : Heap) (hwf : h.wfB = true) :
    h.mem.find? (fun kv => kv.1 == h.next) = none := by
  obtain ⟨mem, nxt⟩ := h
  simp only [Heap.wfB, List.all_eq_true, decide_eq_true_eq] at hwf
  induction mem with
  | nil => rfl
  | cons kv rest ih =>
    have h1 : ¬ (kv.1 == nxt) = true := by
      have := hwf kv (by simp)
      simp only [beq_iff_eq]
      omega
    simp only [List.find?, Bool.not_eq_true] at *
    rw [h1]
    exact ih (fun x hx => hwf x (List.mem_cons_of_mem _ hx))

theorem Heap.get_alloc_self (h : Heap) (o : Obj) (hwf : h.wfB = true) :
    (h.alloc o).1.get h.next = some o := by
  have hnone := Heap.find?_none_of_wf h hwf
  simp only [Heap.alloc, Heap.get]
  rw [List.find?_append, hnone]
  simp [List.find?]

theorem Heap.get_set_other (h : Heap) (a : Nat) (o : Obj) (b : Nat) (hb : b ≠ a) :
    (h.set a o).get b = h.get b := by
  obtain ⟨mem, nxt⟩ := h
  simp only [Heap.set, Heap.get]
  induction mem with
  | nil => rfl
  | cons kv rest ih =>
    by_cases hk : kv.1 == a
    · have hk' : kv.1 = a := by simpa using hk
      have : ¬ (a == b) = true := by simp [Ne.symm hb]
      simp [setMem, hk, List.find?, hk', this, Ne.symm hb]
    · simp only [setMem, hk, if_false, List.find?] at *
      by_cases hkb : kv.1 == b
      · simp [hkb]
      · simp only [hkb] at *
        exact ih

theorem Heap.get_set_self (h : Heap) (a : Nat) (o o0 : Obj) (h0 : h.get a = some o0) :
    (h.set a o).get a = some o := by
  obtain ⟨mem, nxt⟩ := h
  simp only [Heap.set, Heap.get] at *
  induction mem with
  | nil => simp [List.find?] at h0
  | cons kv rest ih =>
    by_cases hk : kv.1 == a
    · simp [setMem, hk, List.find?]
    · simp only [setMem, hk, if_false, List.find?] at *
      exact ih h0

theorem Heap.lt_next_of_get (h : Heap) (a : Nat) (o : Obj) (hwf : h.wfB = true)
    (hg : h.get a = some o) : a < h.next := by
  simp only [Heap.wfB, List.all_eq_true, decide_eq_true_eq] at hwf
  simp only [Heap.get, Option.map_eq_some'] at hg
  obtain ⟨kv, hfind, _⟩ := hg
  have hmem := List.mem_of_find?_eq_some hfind
  have heq : kv.1 = a := by
    have := List.find?_some hfind
    simpa using this
  have := hwf kv hmem
  omega

/-- The full behaviour of the heap-level `Notepad.addSection`: it allocates
the clone at the fresh address, assigns the argument section's `parent`
field to that fresh address, and touches no other object. -/
theorem Heap.addSection_spec (h : Heap) (p s : Nat) (np : NotepadObj) (so : SectionObj)
    (hwf : h.wfB = true) (hp : h.get p = some (.notepad np)) (hs : h.get s = some (.sec so)) :
    ∃ h', Heap.addSection h p s = some (h', h.next) ∧
      h'.get h.next = some (.notepad { np with sections := np.sections ++ [s] }) ∧
      h'.get s = some (.sec { so with parent := some h.next }) ∧
      (∀ a, a ≠ s → a ≠ h.next → h'.get a = h.get a) ∧
      p < h.next ∧ s < h.next ∧ p ≠ s := by
  have hplt := Heap.lt_next_of_get h p _ hwf hp
  have hslt := Heap.lt_next_of_get h s _ hwf hs
  have hps : p ≠ s := by
    intro he
    rw [he, hs] at hp
    exact Obj.noConfusion (Option.some.inj hp)
  have hsne : s ≠ h.next := by omega
  have hget1 : (h.alloc (.notepad { np with sections := np.sections ++ [s] })).1.get s
      = some (.sec so) := by
    rw [Heap.get_alloc_other h _ s hsne]
    exact hs
  refine ⟨(h.alloc (.notepad { np with sections := np.sections ++ [s] })).1.set s
      (.sec { so with parent := some h.next }), ?_, ?_, ?_, ?_, hplt, hslt, hps⟩
  · simp only [Heap.addSection, hp]
    rw [hget1]
    simp [Heap.alloc]
  · rw [Heap.get_set_other _ _ _ _ (by omega : h.next ≠ s)]
    have := Heap.get_alloc_self h (.notepad { np with sections := np.sections ++ [s] }) hwf
    simpa [Heap.alloc] using this
  · exact Heap.get_set_self _ s _ _ hget1
  · intro a has hanext
    rw [Heap.get_set_other _ _ _ _ has]
    simpa [Heap.alloc] using Heap.get_alloc_other h _ a hanext

/-- The full behaviour of the heap-level `Notepad.addAsset`: it only
allocates the clone; no existing object is written. -/
theorem Heap.addAsset_spec (h : Heap) (p : Nat) (a : Asset) (np : NotepadObj)
    (hwf : h.wfB = true) (hp : h.get p = some (.notepad np)) :
    ∃ h', Heap.addAsset h p a = some (h', h.next) ∧
      h'.get h.next = some (.notepad { np with
        assets := np.assets ++ [a], notepadAssets := np.notepadAssets ++ [a.uuid] }) ∧
      (∀ b, b ≠ h.next → h'.get b = h.get b) ∧
      p < h.next := by
  refine ⟨(h.alloc (.notepad { np with
      assets := np.assets ++ [a], notepadAssets := np.notepadAssets ++ [a.uuid] })).1,
      ?_, ?_, ?_, Heap.lt_next_of_get h p _ hwf hp⟩
  · simp only [Heap.addAsset, hp]
    rfl
  · simpa [Heap.alloc] using Heap.get_alloc_self h _ hwf
  · intro b hb
    simpa [Heap.alloc] using Heap.get_alloc_other h _ b hb

/-- The full behaviour of the heap-level `Section.addNote`: it allocates
the cloned section at the fresh address, assigns the argument note's
`parent` field to that fresh address, and touches no other object. -/
theorem Heap.addNote_spec (h : Heap) (s nA : Nat) (so : SectionObj) (no : NoteObj)
    (hwf : h.wfB = true) (hs : h.get s = some (.sec so))
    (hn : h.get nA = some (.note no)) :
    ∃ h', Heap.addNote h s nA = some (h', h.next) ∧
      h'.get h.next = some (.sec { so with notes := so.notes ++ [nA] }) ∧
      h'.get nA = some (.note { no with parent := some h.next }) ∧
      (∀ a, a ≠ nA → a ≠ h.next → h'.get a = h.get a) ∧
      s < h.next ∧ nA < h.next ∧ s ≠ nA := by
  have hslt := Heap.lt_next_of_get h s _ hwf hs
  have hnlt := Heap.lt_next_of_get h nA _ hwf hn
  have hsn : s ≠ nA := by
    intro he
    rw [he, hn] at hs
    exact Obj.noConfusion (Option.some.inj hs)
  have hnne : nA ≠ h.next := by omega
  have hget1 : (h.alloc (.sec { so with notes := so.notes ++ [nA] })).1.get nA
      = some (.note no) := by
    rw [Heap.get_alloc_other h _ nA hnne]
    exact hn
  refine ⟨(h.alloc (.sec { so with notes := so.notes ++ [nA] })).1.set nA
      (.note { no with parent := some h.next }), ?_, ?_, ?_, ?_, hslt, hnlt, hsn⟩
  · simp only [Heap.addNote, hs]
    rw [hget1]
    simp [Heap.alloc]
  · rw [Heap.get_set_other _ _ _ _ (by omega : h.next ≠ nA)]
    have := Heap.get_alloc_self h (.sec { so with notes := so.notes ++ [nA] }) hwf
    simpa [Heap.alloc] using this
  · exact Heap.get_set_self _ nA _ _ hget1
  · intro a han hanext
    rw [Heap.get_set_other _ _ _ _ han]
    simpa [Heap.alloc] using Heap.get_alloc_other h _ a hanext

/-! ## Asset invariant (value view) -/

/-- Every asset held by the notepad has its uuid in the in-use identifier
list `notepadAssets`. -/
def Notepad.assetInv (p : Notepad) : Prop :=
  ∀ a ∈ p.assets, a.uuid ∈ p.notepadAssets

instance (p : Notepad) : Decidable p.assetInv := by
  unfold Notepad.assetInv
  infer_instance

/-! ## Concrete demonstration values (used by witnesses) -/

def demoNp : NotepadObj := ⟨"receiver", "2020-01-01", [], [], []⟩

def demoSec : SectionObj := ⟨"child", "ref-s", [], [], some 0⟩

def demoNoteObj : NoteObj := ⟨"test note", 0, [], [], "nr-1", none⟩

def demoHeap : Heap :=
  ⟨[(0, .notepad ⟨"holder", "2020-01-01", [2], [], []⟩),
    (1, .notepad demoNp),
    (2, .sec demoSec),
    (3, .note demoNoteObj)], 4⟩

def demoAsset : Asset := ⟨"uuid-1", "blob"⟩

def demoElem : NoteElement := ⟨"markdown", "Hello, World!", [("id", "markdown1")]⟩

def demoSource : Source := ⟨1, "markdown1", "https://nick.geek.nz"⟩

def demoNote : Note := ⟨"test note", 0, [], [], "ref-n", none⟩

/-! ## Claim C2 -/

/-- C2, counterexample: running `Notepad.addSection` on a concrete heap
(receiver at address 1, argument section at address 2, the section also
referenced from the notepad at address 0) changes the object stored at
address 2 — the operation does alter an existing value reachable from other
references, so the claim as stated is false. -/
theorem claim2_counterexample :
    (Heap.addSection demoHeap 1 2).map (fun res => res.1.get 2) ≠
      some (demoHeap.get 2) := by
  decide

/-- C2 (amended): each of the five structural operations — `addSection`,
`addNote`, `addElement`, `addSource`, `addAsset` — returns a fresh value
distinct from the receiver, leaves the receiver's own fields unchanged and
alters no other existing object — except that `addSection` and `addNote`
assign the argument child's `parent` back-reference in place, mutating
that one existing object. -/
theorem claim2_structural_ops_pure (h : Heap) (p s nA : Nat) (np : NotepadObj)
    (so : SectionObj) (no : NoteObj) (a : Asset) (n : Note) (e : NoteElement)
    (src : Source) (hwf : h.wfB = true) (hp : h.get p = some (.notepad np))
    (hs : h.get s = some (.sec so)) (hn : h.get nA = some (.note no)) :
    (∃ h' newAddr, Heap.addSection h p s = some (h', newAddr) ∧ newAddr ≠ p ∧
        h'.get p = h.get p ∧
        (∀ b, b ≠ s → b ≠ newAddr → h'.get b = h.get b) ∧
        h'.get s = some (.sec { so with parent := some newAddr })) ∧
    (∃ h' newAddr, Heap.addNote h s nA = some (h', newAddr) ∧ newAddr ≠ s ∧
        h'.get s = h.get s ∧
        (∀ b, b ≠ nA → b ≠ newAddr → h'.get b = h.get b) ∧
        h'.get nA = some (.note { no with parent := some newAddr })) ∧
    (∃ h' newAddr, Heap.addAsset h p a = some (h', newAddr) ∧ newAddr ≠ p ∧
        (∀ b, b ≠ newAddr → h'.get b = h.get b)) ∧
    (n.addElement e ≠ n ∧ (n.addElement e).elements = n.elements ++ [e]) ∧
    (n.addSource src ≠ n ∧ (n.addSource src).bibliography = n.bibliography ++ [src]) := by
  obtain ⟨h', hstep, hnew, hsec, hframe, hplt, hslt, hps⟩ :=
    Heap.addSection_spec h p s np so hwf hp hs
  obtain ⟨h3, hstep3, hnew3, hnote3, hframe3, hslt3, hnlt3, hsn3⟩ :=
    Heap.addNote_spec h s nA so no hwf hs hn
  obtain ⟨h2, hstep2, hnew2, hframe2, hplt2⟩ := Heap.addAsset_spec h p a np hwf hp
  refine ⟨⟨h', h.next, hstep, by omega, ?_, hframe, hsec⟩,
          ⟨h3, h.next, hstep3, by omega, ?_, hframe3, hnote3⟩,
          ⟨h2, h.next, hstep2, by omega, hframe2⟩, ⟨?_, rfl⟩, ⟨?_, rfl⟩⟩
  · exact hframe p hps (by omega)
  · exact hframe3 s hsn3 (by omega)
  · intro heq
    have := congrArg (fun m => m.elements.length) heq
    simp [Note.addElement] at this
  · intro heq
    have := congrArg (fun m => m.bibliography.length) heq
    simp [Note.addSource] at this

/-- C2 witness: the amended statement evaluated on the concrete heap, for
the two operations that relink the argument child (`addSection` on the
notepad at address 1 with the section at address 2, `addNote` on the
section at address 2 with the note at address 3). -/
theorem claim2_witness :
    (∃ h' newAddr, Heap.addSection demoHeap 1 2 = some (h', newAddr) ∧ newAddr ≠ 1 ∧
      h'.get 1 = demoHeap.get 1 ∧
      (∀ b, b ≠ 2 → b ≠ newAddr → h'.get b = demoHeap.get b) ∧
      h'.get 2 = some (.sec { demoSec with parent := some newAddr })) ∧
    (∃ h' newAddr, Heap.addNote demoHeap 2 3 = some (h', newAddr) ∧ newAddr ≠ 2 ∧
      h'.get 2 = demoHeap.get 2 ∧
      (∀ b, b ≠ 3 → b ≠ newAddr → h'.get b = demoHeap.get b) ∧
      h'.get 3 = some (.note { demoNoteObj with parent := some newAddr })) := by
  have h := claim2_structural_ops_pure demoHeap 1 2 3 demoNp demoSec demoNoteObj
    demoAsset demoNote demoElem demoSource (by decide) (by decide) (by decide)
    (by decide)
  exact ⟨h.1, h.2.1⟩

/-! ## Claim C3 -/

/-- C3: `p.addSection(s)` appends `s` as the last element of the new
notepad's sections, and the appended child's parent back-reference denotes
the freshly created notepad object, not the old receiver. -/
theorem claim3_addSection_backref (h : Heap) (p s : Nat) (np : NotepadObj)
    (so : SectionObj) (hwf : h.wfB = true) (hp : h.get p = some (.notepad np))
    (hs : h.get s = some (.sec so)) :
    ∃ h' p2, Heap.addSection h p s = some (h', p2) ∧
      h'.get p2 = some (.notepad { np with sections := np.sections ++ [s] }) ∧
      h'.get s = some (.sec { so with parent := some p2 }) ∧
      p2 ≠ p := by
  obtain ⟨h', hstep, hnew, hsec, hframe, hplt, hslt, hps⟩ :=
    Heap.addSection_spec h p s np so hwf hp hs
  exact ⟨h', h.next, hstep, hnew, hsec, by omega⟩

/-- C3 witness: the back-reference law evaluated on the concrete heap. -/
theorem claim3_witness :
    ∃ h' p2, Heap.addSection demoHeap 1 2 = some (h', p2) ∧
      h'.get p2 = some (.notepad { demoNp with sections := demoNp.sections ++ [2] }) ∧
      h'.get 2 = some (.sec { demoSec with parent := some p2 }) ∧
      p2 ≠ 1 :=
  claim3_addSection_backref demoHeap 1 2 demoNp demoSec (by decide) (by decide) (by decide)

/-! ## Claim C9 -/

/-- C9: `addAsset` appends the asset to `assets` and its uuid to
`notepadAssets`, and the invariant that every held asset's uuid is in the
in-use identifier list is preserved by `addAsset`, `addSection` and
`modified`. -/
theorem claim9_addAsset_inv :
    (∀ (p : Notepad) (a : Asset),
       (p.addAsset a).assets = p.assets ++ [a] ∧
       (p.addAsset a).notepadAssets = p.notepadAssets ++ [a.uuid]) ∧
    (∀ p : Notepad, p.assetInv →
       (∀ a, (p.addAsset a).assetInv) ∧ (∀ s, (p.addSection s).assetInv) ∧
       (∀ d, (p.modified d).assetInv)) := by
  refine ⟨fun p a => ⟨rfl, rfl⟩, fun p hI => ⟨?_, fun s => hI, fun d => hI⟩⟩
  intro a x hx
  simp only [Notepad.addAsset, Notepad.clone, Option.getD_some, List.mem_append,
    List.mem_singleton] at hx ⊢
  rcases hx with hx | hx
  · exact Or.inl (hI x hx)
  · subst hx
    exact Or.inr rfl

/-- C9 witness: the invariant statement evaluated on a concrete notepad. -/
theorem claim9_witness :
    (∀ a, ((Notepad.mk "np" "2020-01-01" [] ["uuid-0"] [⟨"uuid-0", "b"⟩]).addAsset a).assetInv) ∧
    (∀ s, ((Notepad.mk "np" "2020-01-01" [] ["uuid-0"] [⟨"uuid-0", "b"⟩]).addSection s).assetInv) ∧
    (∀ d, ((Notepad.mk "np" "2020-01-01" [] ["uuid-0"] [⟨"uuid-0", "b"⟩]).modified d).assetInv) :=
  (claim9_addAsset_inv.2 (Notepad.mk "np" "2020-01-01" [] ["uuid-0"] [⟨"uuid-0", "b"⟩])
    (by decide))

/-! ## SearchIndex: Trie (src/src/SearchIndex.ts) -/

/-- `TrieNode`: key character, references stored at this node, and
insertion-ordered children keyed by character. -/
inductive TrieNode where
  | mk : Char → List String → List (Char × TrieNode) → TrieNode

def TrieNode.key : TrieNode → Char
  | .mk k _ _ => k

def TrieNode.notes : TrieNode → List String
  | .mk _ ns _ => ns

def TrieNode.children : TrieNode → List (Char × TrieNode)
  | .mk _ _ ch => ch

def lookupChild : List (Char × TrieNode) → Char → Option TrieNode
  | [], _ => none
  | (k, v) :: rest, c => if k == c then some v else lookupChild rest c

/-- Replace the binding of an existing child character, keeping its slot. -/
def updateChild : List (Char × TrieNode) → Char → TrieNode → List (Char × TrieNode)
  | [], _, _ => []
  | (k, v) :: rest, c, nv =>
    if k == c then (k, nv) :: rest else (k, v) :: updateChild rest c nv

/-- The character-by-character walk of `Trie.search`: `none` as soon as a
character has no corresponding child. -/
def TrieNode.descend : TrieNode → List Char → Option TrieNode
  | n, [] => some n
  | n, c :: cs =>
    match lookupChild n.children c with
    | none => none
    | some m => m.descend cs

/-- The insertion walk of `Trie.add` for a non-hashtag key: create missing
child nodes on demand, then push the reference at the terminal node. -/
def TrieNode.addPath : TrieNode → List Char → String → TrieNode
  | .mk k ns ch, [], ref => .mk k (ns ++ [ref]) ch
  | .mk k ns ch, c :: cs, ref =>
    match lookupChild ch c with
    | some child => .mk k ns (updateChild ch c (child.addPath cs ref))
    | none => .mk k ns (ch ++ [(c, (TrieNode.mk c [] []).addPath cs ref)])

mutual

/-- `TrieNode.getAllFrom`: this node's references followed by every
subtree's references, depth-first. -/
def TrieNode.getAllFrom : TrieNode → List String
  | .mk _ ns ch => ns ++ allFromChildren ch

def allFromChildren : List (Char × TrieNode) → List String
  | [] => []
  | (_, v) :: rest => v.getAllFrom ++ allFromChildren rest

end

/-- First-occurrence deduplication: the JS `[...new Set(xs)]`. -/
def dedupFirst : List String → List String
  | [] => []
  | x :: xs => x :: dedupFirst (xs.filter (fun y => y ≠ x))
termination_by l => l.length
decreasing_by
  simp only [List.length_cons]
  exact Nat.lt_succ_of_le (List.length_filter_le _ _)

def lookupStr {α : Type} : List (String × α) → String → Option α
  | [], _ => none
  | (k, v) :: rest, q => if k == q then some v else lookupStr rest q

/-- JS object key assignment: replace in place when present, append when
absent. -/
def insertStr {α : Type} : List (String × α) → String → α → List (String × α)
  | [], k, v => [(k, v)]
  | (k0, v0) :: rest, k, v =>
    if k0 == k then (k0, v) :: rest else (k0, v0) :: insertStr rest k v

/-- The JS test `key.charAt(0) === '#'` (`false` on the empty string). -/
def firstIsHash (s : String) : Bool :=
  match s.toList with
  | [] => false
  | c :: _ => c == '#'

/-- The `Trie` of `SearchIndex.ts`: character trie for titles, an exact-match
hashtag map and an unconditionally incremented insertion counter. -/
structure Trie where
  root : TrieNode
  hashtags : List (String × List String)
  _size : Nat
  lastModified : Int

/-- The `Trie` constructor: empty root node (key `'\0'`), no hashtags, size
zero, and the captured build timestamp. -/
def Trie.new (lastModified : Int) : Trie :=
  ⟨.mk '\x00' [] [], [], 0, lastModified⟩

def Trie.size (t : Trie) : Nat := t._size

/-- `Trie.shouldReindex`: stale when the trie's own timestamp is strictly
after the supplied one, or the supplied note count differs from `size`. -/
def Trie.shouldReindex (t : Trie) (lastModified : Int) (numberOfNotes : Nat) : Bool :=
  decide (t.lastModified > lastModified) || decide (numberOfNotes ≠ t.size)

/-- `Trie.add`: a key beginning with `#` goes to the hashtag map with a
repeat-insertion check; any other key is inserted character by character
into the trie and the size counter is incremented. -/
def Trie.add (t : Trie) (key ref : String) : Trie :=
  if firstIsHash key then
    let notes := (lookupStr t.hashtags key).getD []
    if notes.contains ref then t
    else { t with hashtags := insertStr t.hashtags key (notes ++ [ref]) }
  else
    { t with root := t.root.addPath key.toList ref, _size := t._size + 1 }

/-- `Trie.search`: exact hashtag lookup for `#` queries; otherwise descend
the trie and return the deduplicated contents of the reached subtree. -/
def Trie.search (t : Trie) (query : String) : List String :=
  if firstIsHash query then
    (lookupStr t.hashtags query).getD []
  else
    match t.root.descend query.toList with
    | none => []
    | some node => dedupFirst node.getAllFrom

/-- A trie built by replaying a list of `(key, ref)` insertions on a fresh
index. -/
def buildTrie (lastModified : Int) (pairs : List (String × String)) : Trie :=
  pairs.foldl (fun t kr => t.add kr.1 kr.2) (Trie.new lastModified)

/-- Every hashtag bucket is duplicate-free. -/
def Trie.hashtagsNodup (t : Trie) : Prop :=
  ∀ kv ∈ t.hashtags, kv.2.Nodup

instance (t : Trie) : Decidable t.hashtagsNodup := by
  unfold Trie.hashtagsNodup
  infer_instance

/-! ### Trie lemmas -/

theorem mem_allFromChildren_updateChild (c : Char) (r : String)
    (nv : TrieNode) (x : String) :
    ∀ (ch : List (Char × TrieNode)) (child : TrieNode),
      lookupChild ch c = some child →
      (x ∈ nv.getAllFrom ↔ x ∈ child.getAllFrom ∨ x = r) →
      (x ∈ allFromChildren (updateChild ch c nv) ↔ x ∈ allFromChildren ch ∨ x = r)
  | [], child => by simp [lookupChild]
  | (k, v) :: rest, child => by
    intro hl hnv
    by_cases hk : k == c
    · simp only [lookupChild, hk, if_true, Option.some_inj] at hl
      subst hl
      simp only [updateChild, hk, if_true, allFromChildren, List.mem_append, hnv]
      tauto
    · simp only [lookupChild, hk, if_false] at hl
      have ih := mem_allFromChildren_updateChild c r nv x rest child hl hnv
      simp only [updateChild, hk, if_false, allFromChildren, List.mem_append, ih]
      tauto

theorem mem_getAllFrom_addPath (r x : String) :
    ∀ (cs : List Char) (n : TrieNode),
      x ∈ (n.addPath cs r).getAllFrom ↔ x ∈ n.getAllFrom ∨ x = r
  | [], .mk k ns ch => by
    simp only [TrieNode.addPath, TrieNode.getAllFrom, List.mem_append, List.mem_singleton]
    tauto
  | c :: cs, .mk k ns ch => by
    cases hl : lookupChild ch c with
    | some child =>
      have ih := mem_getAllFrom_addPath r x cs child
      have hupd := mem_allFromChildren_updateChild c r (child.addPath cs r) x ch child hl ih
      simp only [TrieNode.addPath, hl, TrieNode.getAllFrom, List.mem_append, hupd]
      tauto
    | none =>
      have ih := mem_getAllFrom_addPath r x cs (TrieNode.mk c [] [])
      have hempty : (TrieNode.mk c [] []).getAllFrom = [] := by
        simp [TrieNode.getAllFrom, allFromChildren]
      rw [hempty] at ih
      simp only [List.not_mem_nil, false_or] at ih
      have happ : ∀ (l1 l2 : List (Char × TrieNode)),
          x ∈ allFromChildren (l1 ++ l2) ↔
            x ∈ allFromChildren l1 ∨ x ∈ allFromChildren l2 := by
        intro l1 l2
        induction l1 with
        | nil => simp [allFromChildren]
        | cons kv rest ih2 =>
          obtain ⟨k0, v0⟩ := kv
          simp only [List.cons_append, allFromChildren, List.mem_append, ih2]
          tauto
      simp only [TrieNode.addPath, hl, TrieNode.getAllFrom, List.mem_append, happ,
        allFromChildren, List.not_mem_nil, or_false, ih]
      tauto

theorem mem_dedupFirst (x : String) : ∀ (l : List String), x ∈ dedupFirst l ↔ x ∈ l
  | [] => by simp [dedupFirst]
  | y :: ys => by
    by_cases hxy : x = y
    · simp [dedupFirst, hxy]
    · have ih := mem_dedupFirst x (ys.filter (fun z => z ≠ y))
      simp only [dedupFirst, List.mem_cons, hxy, false_or, ih, List.mem_filter,
        decide_eq_true_eq]
      tauto
termination_by l => l.length
decreasing_by
  simp only [List.length_cons]
  exact Nat.lt_succ_of_le (List.length_filter_le _ _)

theorem nodup_dedupFirst : ∀ (l : List String), (dedupFirst l).Nodup
  | [] => by simp [dedupFirst]
  | y :: ys => by
    have ih := nodup_dedupFirst (ys.filter (fun z => z ≠ y))
    simp only [dedupFirst, List.nodup_cons]
    refine ⟨?_, ih⟩
    intro hmem
    rw [mem_dedupFirst] at hmem
    simp at hmem
termination_by l => l.length
decreasing_by
  simp only [List.length_cons]
  exact Nat.lt_succ_of_le (List.length_filter_le _ _)

theorem Trie.add_hashtag_fields (t : Trie) (k r : String) (h : firstIsHash k = true) :
    (t.add k r).root = t.root ∧ (t.add k r)._size = t._size ∧
    (t.add k r).lastModified = t.lastModified := by
  simp only [Trie.add, h, if_true]
  split <;> simp

theorem Trie.add_title_fields (t : Trie) (k r : String) (h : firstIsHash k = false) :
    (t.add k r).root = t.root.addPath k.toList r ∧ (t.add k r)._size = t._size + 1 ∧
    (t.add k r).lastModified = t.lastModified ∧ (t.add k r).hashtags = t.hashtags := by
  simp [Trie.add, h]

theorem mem_getAllFrom_foldl_add (x : String) :
    ∀ (pairs : List (String × String)) (t : Trie),
      x ∈ (pairs.foldl (fun t kr => t.add kr.1 kr.2) t).root.getAllFrom ↔
        x ∈ t.root.getAllFrom ∨ ∃ k, (k, x) ∈ pairs ∧ firstIsHash k = false
  | [], t => by simp
  | (k, r) :: rest, t => by
    have ih := mem_getAllFrom_foldl_add x rest (t.add k r)
    simp only [List.foldl_cons] at *
    rw [ih]
    cases hk : firstIsHash k with
    | true =>
      rw [(Trie.add_hashtag_fields t k r hk).1]
      constructor
      · rintro (hx | ⟨k', hk', hs⟩)
        · exact Or.inl hx
        · exact Or.inr ⟨k', List.mem_cons_of_mem _ hk', hs⟩
      · rintro (hx | ⟨k', hk', hs⟩)
        · exact Or.inl hx
        · rcases List.mem_cons.mp hk' with heq | hmem
          · exfalso
            have h1 : k' = k := congrArg Prod.fst heq
            rw [h1, hk] at hs
            exact Bool.noConfusion hs
          · exact Or.inr ⟨k', hmem, hs⟩
    | false =>
      rw [(Trie.add_title_fields t k r hk).1, mem_getAllFrom_addPath]
      constructor
      · rintro ((hx | hxr) | ⟨k', hk', hs⟩)
        · exact Or.inl hx
        · subst hxr
          exact Or.inr ⟨k, List.mem_cons_self _ _, hk⟩
        · exact Or.inr ⟨k', List.mem_cons_of_mem _ hk', hs⟩
      · rintro (hx | ⟨k', hk', hs⟩)
        · exact Or.inl (Or.inl hx)
        · rcases List.mem_cons.mp hk' with heq | hmem
          · have h1 : x = r := congrArg Prod.snd heq
            exact Or.inl (Or.inr h1)
          · exact Or.inr ⟨k', hmem, hs⟩

theorem lookupStr_insertStr_self {α : Type} (k : String) (v : α) :
    ∀ (m : List (String × α)), lookupStr (insertStr m k v) k = some v
  | [] => by simp [insertStr, lookupStr]
  | (k0, v0) :: rest => by
    by_cases hk : k0 == k
    · simp [insertStr, hk, lookupStr]
    · simp [insertStr, hk, lookupStr, lookupStr_insertStr_self k v rest]

theorem mem_insertStr {α : Type} (k : String) (v : α) :
    ∀ (m : List (String × α)) (kv : String × α),
      kv ∈ insertStr m k v → kv ∈ m ∨ kv = (k, v)
  | [], kv => by simp [insertStr]
  | (k0, v0) :: rest, kv => by
    intro h
    by_cases hk : (k0 == k) = true
    · have hk' : k0 = k := by simpa using hk
      simp only [insertStr, hk, if_true] at h
      rcases List.mem_cons.mp h with he | hm
      · exact Or.inr (by rw [he, hk'])
      · exact Or.inl (List.mem_cons_of_mem _ hm)
    · simp only [insertStr, hk, if_false] at h
      rcases List.mem_cons.mp h with he | hm
      · exact Or.inl (he ▸ List.mem_cons_self _ _)
      · rcases mem_insertStr k v rest kv hm with h2 | h2
        · exact Or.inl (List.mem_cons_of_mem _ h2)
        · exact Or.inr h2

theorem lookupStr_mem {α : Type} (k : String) :
    ∀ (m : List (String × α)) (v : α), lookupStr m k = some v → (k, v) ∈ m
  | [], v => by simp [lookupStr]
  | (k0, v0) :: rest, v => by
    by_cases hk : k0 == k
    · have hk' : k0 = k := by simpa using hk
      subst hk'
      simp only [lookupStr, hk, if_true, Option.some_inj, List.mem_cons]
      intro h
      exact Or.inl (by rw [h])
    · simp only [lookupStr, hk, if_false, List.mem_cons]
      intro h
      exact Or.inr (lookupStr_mem k rest v h)

/-- The hashtag branch of `Trie.add`, normalised. -/
theorem Trie.add_hashtag_eq (t : Trie) (k r : String) (h : firstIsHash k = true) :
    t.add k r =
      if ((lookupStr t.hashtags k).getD []).contains r then t
      else { t with hashtags :=
              insertStr t.hashtags k (((lookupStr t.hashtags k).getD []) ++ [r]) } := by
  simp [Trie.add, h]

/-- The bucket of a hashtag key is duplicate-free in a trie with
duplicate-free buckets. -/
theorem Trie.bucket_nodup (t : Trie) (k : String) (hN : t.hashtagsNodup) :
    ((lookupStr t.hashtags k).getD []).Nodup := by
  cases hl : lookupStr t.hashtags k with
  | none => simp
  | some b =>
    have := hN (k, b) (lookupStr_mem k t.hashtags b hl)
    simpa using this

/-- `Trie.add` preserves duplicate-freeness of every hashtag bucket. -/
theorem Trie.add_preserves_hashtagsNodup (t : Trie) (k r : String)
    (hN : t.hashtagsNodup) : (t.add k r).hashtagsNodup := by
  cases hk : firstIsHash k with
  | false =>
    intro kv hkv
    rw [(Trie.add_title_fields t k r hk).2.2.2] at hkv
    exact hN kv hkv
  | true =>
    rw [Trie.add_hashtag_eq t k r hk]
    split
    · exact hN
    · intro kv hkv
      rcases mem_insertStr _ _ _ kv hkv with hm | he
      · exact hN kv hm
      · rw [he]
        have hb := Trie.bucket_nodup t k hN
        have hr : r ∉ (lookupStr t.hashtags k).getD [] := by
          rename_i hc
          simpa using hc
        simp [List.nodup_append, hb, List.disjoint_singleton, hr]

/-- What a hashtag search returns after a hashtag insertion. -/
theorem Trie.search_add_hashtag (t : Trie) (k r : String) (h : firstIsHash k = true) :
    (t.add k r).search k =
      if ((lookupStr t.hashtags k).getD []).contains r
      then (lookupStr t.hashtags k).getD []
      else ((lookupStr t.hashtags k).getD []) ++ [r] := by
  rw [Trie.add_hashtag_eq t k r h]
  split
  · simp [Trie.search, h]
  · simp [Trie.search, h, lookupStr_insertStr_self]

/-- Repeating the same hashtag insertion is a no-op. -/
theorem Trie.add_hashtag_idem (t : Trie) (k r : String) (h : firstIsHash k = true) :
    (t.add k r).add k r = t.add k r := by
  rw [Trie.add_hashtag_eq t k r h]
  split
  · rw [Trie.add_hashtag_eq t k r h]
    simp_all
  · rw [Trie.add_hashtag_eq _ k r h]
    have hl : lookupStr (insertStr t.hashtags k
        (((lookupStr t.hashtags k).getD []) ++ [r])) k =
        some (((lookupStr t.hashtags k).getD []) ++ [r]) := lookupStr_insertStr_self k _ _
    simp [hl]

theorem hashtagsNodup_foldl :
    ∀ (pairs : List (String × String)) (t : Trie), t.hashtagsNodup →
      (pairs.foldl (fun t kr => t.add kr.1 kr.2) t).hashtagsNodup
  | [], t => fun h => h
  | (k, r) :: rest, t => fun h => by
    simp only [List.foldl_cons]
    exact hashtagsNodup_foldl rest (t.add k r) (Trie.add_preserves_hashtagsNodup t k r h)

theorem Trie.size_foldl :
    ∀ (pairs : List (String × String)) (t : Trie),
      (pairs.foldl (fun t kr => t.add kr.1 kr.2) t)._size =
        t._size + (pairs.filter (fun kr => !firstIsHash kr.1)).length
  | [], t => by simp
  | (k, r) :: rest, t => by
    have ih := Trie.size_foldl rest (t.add k r)
    simp only [List.foldl_cons] at ih ⊢
    rw [ih]
    cases hk : firstIsHash k with
    | true =>
      rw [(Trie.add_hashtag_fields t k r hk).2.1]
      simp [List.filter_cons, hk]
    | false =>
      rw [(Trie.add_title_fields t k r hk).2.1]
      simp [List.filter_cons, hk]
      omega

theorem Trie.lastModified_foldl :
    ∀ (pairs : List (String × String)) (t : Trie),
      (pairs.foldl (fun t kr => t.add kr.1 kr.2) t).lastModified = t.lastModified
  | [], t => rfl
  | (k, r) :: rest, t => by
    have ih := Trie.lastModified_foldl rest (t.add k r)
    simp only [List.foldl_cons] at ih ⊢
    rw [ih]
    cases hk : firstIsHash k with
    | true => exact (Trie.add_hashtag_fields t k r hk).2.2
    | false => exact (Trie.add_title_fields t k r hk).2.2.1

/-! ## Claim C6 -/

/-- C6: for a query not starting with `#`, `Trie.search` returns `[]` as
soon as the character walk hits a missing child; when the walk consumes the
whole query it returns the deduplicated references of the reached node's
subtree; and an empty query returns exactly the deduplicated set of all
references inserted under non-hashtag keys. -/
theorem claim6_trie_title_search :
    (∀ (t : Trie) (q : String), firstIsHash q = false →
       (t.root.descend q.toList = none → t.search q = []) ∧
       (∀ node, t.root.descend q.toList = some node →
          t.search q = dedupFirst node.getAllFrom ∧ (t.search q).Nodup ∧
          (∀ r, r ∈ t.search q ↔ r ∈ node.getAllFrom))) ∧
    (∀ (lm : Int) (pairs : List (String × String)) (r : String),
       r ∈ (buildTrie lm pairs).search "" ↔
         ∃ k, (k, r) ∈ pairs ∧ firstIsHash k = false) := by
  constructor
  · intro t q hq
    constructor
    · intro hd
      simp only [String.toList] at hd
      simp [Trie.search, hq, hd]
    · intro node hd
      have hs : t.search q = dedupFirst node.getAllFrom := by
        simp only [String.toList] at hd
        simp [Trie.search, hq, hd]
      refine ⟨hs, hs ▸ nodup_dedupFirst _, fun r => ?_⟩
      rw [hs, mem_dedupFirst]
  · intro lm pairs r
    have hq : firstIsHash "" = false := by decide
    have htl : ("" : String).toList = [] := rfl
    have hd : (buildTrie lm pairs).root.descend [] = some (buildTrie lm pairs).root := by
      simp [TrieNode.descend]
    have hsearch : (buildTrie lm pairs).search "" =
        dedupFirst (buildTrie lm pairs).root.getAllFrom := by
      simp [Trie.search, hq, htl, hd]
    rw [hsearch, mem_dedupFirst]
    have hfold := mem_getAllFrom_foldl_add r pairs (Trie.new lm)
    have hroot : r ∈ (Trie.new lm).root.getAllFrom ↔ False := by
      simp [Trie.new, TrieNode.getAllFrom, allFromChildren]
    rw [buildTrie] at *
    rw [hfold, hroot]
    simp

/-- C6 witness: concrete searches on a small built index. -/
theorem claim6_witness :
    ("r1" ∈ (buildTrie 0 [("cat", "r1"), ("car", "r2"), ("#tag", "r3")]).search "") ∧
    (buildTrie 0 [("cat", "r1"), ("car", "r2"), ("#tag", "r3")]).search "zz" = [] := by
  constructor
  · exact (claim6_trie_title_search.2 0 [("cat", "r1"), ("car", "r2"), ("#tag", "r3")]
      "r1").mpr ⟨"cat", by decide, by decide⟩
  · exact (claim6_trie_title_search.1
      (buildTrie 0 [("cat", "r1"), ("car", "r2"), ("#tag", "r3")]) "zz"
      (by decide)).1 (by rfl)

/-! ## Claim C7 -/

/-- C7: repeating `add(key, ref)` for a hashtag key is a no-op — the bucket
stays ordered and duplicate-free and `search(key)` contains the reference
exactly once; every trie built by replaying insertions has duplicate-free
buckets. -/
theorem claim7_hashtag_idempotent :
    (∀ (t : Trie) (k r : String), firstIsHash k = true →
       ((t.add k r).add k r = t.add k r) ∧
       (t.hashtagsNodup →
          ((t.add k r).search k).count r = 1 ∧ (t.add k r).hashtagsNodup)) ∧
    (∀ (lm : Int) (pairs : List (String × String)),
       (buildTrie lm pairs).hashtagsNodup) := by
  constructor
  · intro t k r hk
    refine ⟨Trie.add_hashtag_idem t k r hk,
      fun hN => ⟨?_, Trie.add_preserves_hashtagsNodup t k r hN⟩⟩
    rw [Trie.search_add_hashtag t k r hk]
    split
    · rename_i hc
      have hmem : r ∈ (lookupStr t.hashtags k).getD [] := by simpa using hc
      exact List.count_eq_one_of_mem (Trie.bucket_nodup t k hN) hmem
    · rename_i hc
      have hmem : r ∉ (lookupStr t.hashtags k).getD [] := by simpa using hc
      rw [List.count_append, List.count_eq_zero.mpr hmem]
      simp
  · intro lm pairs
    refine hashtagsNodup_foldl pairs (Trie.new lm) ?_
    intro kv hkv
    simp [Trie.new] at hkv

/-- C7 witness: the idempotence law evaluated on `#todo`/`refA`. -/
theorem claim7_witness :
    (((Trie.new 0).add "#todo" "refA").add "#todo" "refA" =
      (Trie.new 0).add "#todo" "refA") ∧
    ((((Trie.new 0).add "#todo" "refA").search "#todo").count "refA" = 1) := by
  have h := claim7_hashtag_idempotent.1 (Trie.new 0) "#todo" "refA" (by decide)
  exact ⟨h.1, (h.2 (by decide)).1⟩

/-! ## Claim C8 -/

/-- C8: `shouldReindex` is a total boolean function, true exactly when the
index's own build timestamp is strictly after the supplied one or the
supplied count differs from the size counter; the size counter counts
exactly the non-hashtag (title-keyed) insertions. -/
theorem claim8_shouldReindex :
    (∀ (t : Trie) (lm : Int) (n : Nat),
       t.shouldReindex lm n = true ↔ (t.lastModified > lm ∨ n ≠ t.size)) ∧
    (∀ (lm : Int) (pairs : List (String × String)),
       (buildTrie lm pairs).size =
         (pairs.filter (fun kr => !firstIsHash kr.1)).length ∧
       (buildTrie lm pairs).lastModified = lm) := by
  constructor
  · intro t lm n
    simp [Trie.shouldReindex]
  · intro lm pairs
    constructor
    · have := Trie.size_foldl pairs (Trie.new lm)
      simpa [buildTrie, Trie.size, Trie.new] using this
    · simpa [Trie.new] using Trie.lastModified_foldl pairs (Trie.new lm)

/-! ## Claim C10 -/

/-- C10: a hashtag insertion leaves the size counter, the captured
timestamp, and hence every `shouldReindex` verdict unchanged. -/
theorem claim10_hashtag_add_size (t : Trie) (k r : String)
    (h : firstIsHash k = true) :
    (t.add k r).size = t.size ∧ (t.add k r).lastModified = t.lastModified ∧
    (∀ (lm : Int) (n : Nat),
       (t.add k r).shouldReindex lm n = t.shouldReindex lm n) := by
  obtain ⟨hr, hsz, hlm⟩ := Trie.add_hashtag_fields t k r h
  refine ⟨hsz, hlm, fun lm n => ?_⟩
  simp [Trie.shouldReindex, Trie.size, hsz, hlm]

/-- C10 witness: the invariance evaluated on `#todo`/`refA`. -/
theorem claim10_witness :
    ((Trie.new 5).add "#todo" "refA").size = (Trie.new 5).size ∧
    ((Trie.new 5).add "#todo" "refA").lastModified = (Trie.new 5).lastModified ∧
    (∀ (lm : Int) (n : Nat),
       ((Trie.new 5).add "#todo" "refA").shouldReindex lm n =
         (Trie.new 5).shouldReindex lm n) :=
  claim10_hashtag_add_size (Trie.new 5) "#todo" "refA" (by decide)

/-! ## Note search (modelled from the spec; `Note.ts` is absent, its tests
are in src/src/tests/Note.spec.ts) -/

/-- A hashtag word character: part of the `#`-prefixed word pattern. -/
def isWordChar (c : Char) : Bool :=
  c.isAlphanum || c == '-' || c == '_'

/-- Modelled from the spec: the hashtag scanner behind `getHashtags` — a
single left-to-right pass; `acc = some tok` means a `#` token is open. -/
def scanTagsAux : List Char → Option (List Char) → List String
  | [], none => []
  | [], some acc => if acc.length == 1 then [] else [String.mk acc]
  | c :: cs, none =>
    if c == '#' then scanTagsAux cs (some ['#']) else scanTagsAux cs none
  | c :: cs, some acc =>
    if isWordChar c then scanTagsAux cs (some (acc ++ [c]))
    else
      (if acc.length == 1 then [] else [String.mk acc]) ++
        (if c == '#' then scanTagsAux cs (some ['#']) else scanTagsAux cs none)

def scanTags (content : String) : List String :=
  scanTagsAux content.toList none

/-- Modelled from the spec: `Note.getHashtags` (class file absent) — scan
every element's textual content for `#`-prefixed word tokens, in order of
appearance, duplicates retained. -/
def Note.getHashtags (n : Note) : List String :=
  (n.elements.map (fun e => scanTags e.content)).flatten

/-- Is `needle` a contiguous sublist of `hay`? -/
def isSubListOf (needle : List Char) : List Char → Bool
  | [] => needle.isEmpty
  | c :: t => needle.isPrefixOf (c :: t) || isSubListOf needle t

/-- Modelled from the spec: the case-insensitive substring test of the
title search. -/
def containsCI (hay needle : String) : Bool :=
  isSubListOf (needle.toList.map Char.toLower) (hay.toList.map Char.toLower)

/-- Modelled from the spec: `Note.search` (class file absent) — a `#` query
must exactly equal an extracted hashtag; any other query (the empty one
included) is a case-insensitive substring test against the title; the
result is `[this]` on a match and `[]` otherwise. -/
def Note.search (n : Note) (query : String) : List Note :=
  if firstIsHash query then
    if n.getHashtags.contains query then [n] else []
  else
    if containsCI n.title query then [n] else []

theorem containsCI_empty (s : String) : containsCI s "" = true := by
  have h : (("" : String).toList.map Char.toLower) = [] := rfl
  rw [containsCI, h]
  cases hl : s.toList.map Char.toLower <;> simp [isSubListOf, List.isPrefixOf]

/-! ## Claim C5 -/

/-- C5: the empty query returns the note itself; a non-`#` query matches
iff it is a case-insensitive substring of the title; a `#` query matches
iff it exactly equals an extracted hashtag (so a proper prefix of a
hashtag does not match), with `[]` returned otherwise. -/
theorem claim5_note_search (n : Note) (q : String) :
    (q = "" → n.search q = [n]) ∧
    (firstIsHash q = false →
       (n.search q = [n] ↔ containsCI n.title q = true) ∧
       (containsCI n.title q = false → n.search q = [])) ∧
    (firstIsHash q = true →
       (n.search q = [n] ↔ q ∈ n.getHashtags) ∧
       (q ∉ n.getHashtags → n.search q = [])) := by
  refine ⟨?_, ?_, ?_⟩
  · intro hq
    subst hq
    have h0 : firstIsHash "" = false := by decide
    simp [Note.search, h0, containsCI_empty]
  · intro hq
    refine ⟨⟨?_, ?_⟩, ?_⟩
    · intro hs
      by_cases hc : containsCI n.title q = true
      · exact hc
      · rw [Bool.not_eq_true] at hc
        simp [Note.search, hq, hc] at hs
    · intro hc
      simp [Note.search, hq, hc]
    · intro hc
      simp [Note.search, hq, hc]
  · intro hq
    refine ⟨⟨?_, ?_⟩, ?_⟩
    · intro hs
      by_cases hm : q ∈ n.getHashtags
      · exact hm
      · simp [Note.search, hq, hm] at hs
    · intro hm
      simp [Note.search, hq, hm]
    · intro hm
      simp [Note.search, hq, hm]

/-- The note of the `Note.spec.ts` search tests: title `"test"`, one
markdown element containing `"#match"`. -/
def searchNote : Note :=
  Note.addElement ⟨"test", 0, [], [], "ref-t", none⟩ ⟨"markdown", "#match", []⟩

/-- C5 witness: the search behaviours of the spec's test suite. -/
theorem claim5_witness :
    (searchNote.search "" = [searchNote]) ∧
    (searchNote.search "te" = [searchNote]) ∧
    (searchNote.search "invalid" = []) ∧
    (searchNote.search "#match" = [searchNote]) ∧
    (searchNote.search "#mat" = []) := by
  refine ⟨(claim5_note_search searchNote "").1 rfl, ?_, ?_, ?_, ?_⟩
  · exact ((claim5_note_search searchNote "te").2.1 (by decide)).1.mpr (by decide)
  · exact ((claim5_note_search searchNote "invalid").2.1 (by decide)).2 (by decide)
  · exact ((claim5_note_search searchNote "#match").2.2 (by decide)).1.mpr (by decide)
  · exact ((claim5_note_search searchNote "#mat").2.2 (by decide)).2 (by decide)

/-! ## FlatNotepad and `Notepad.flatten` -/

/-- A flat section descriptor (`FlatSection`): title, own ref, optional
parent section ref. -/
structure FlatSection where
  title : String
  internalRef : String
  parentRef : Option String
deriving DecidableEq

/-- Modelled from the spec: `FlatNotepad` (class file absent) — title,
timestamp, identifier-keyed section-descriptor and note maps (insertion
ordered, as JS objects are), and the asset identifier list. -/
structure FlatNotepad where
  title : String
  lastModified : String
  sections : List (String × FlatSection)
  notes : List (String × Note)
  notepadAssets : List String
deriving DecidableEq

/-- Modelled from the spec: `FlatNotepad.addSection` — store the descriptor
keyed by its `internalRef` (JS object spread: replace or append). -/
def FlatNotepad.addSection (f : FlatNotepad) (fs : FlatSection) : FlatNotepad :=
  { f with sections := insertStr f.sections fs.internalRef fs }

/-- Modelled from the spec: `FlatNotepad.addNote` — store the note keyed by
its `internalRef`; the note's `parent` field is its owning section's ref. -/
def FlatNotepad.addNote (f : FlatNotepad) (n : Note) : FlatNotepad :=
  { f with notes := insertStr f.notes n.internalRef n }

/-- The parent ref recorded by `flatten`:
`(section.parent as Section).internalRef`, which is `undefined` (here:
`none`) when the parent is the Notepad root or unset. -/
def parentRefOf : Option PLink → Option String
  | some (.toSection r) => some r
  | _ => none

def Section.toFlat : Section → FlatSection
  | .mk t r _ _ par => ⟨t, r, parentRefOf par⟩

mutual

/-- The `flattenSection` closure of `Notepad.flatten`: emit this section's
descriptor, then its notes, then recurse into its children. -/
def flattenSection (acc : FlatNotepad) : Section → FlatNotepad
  | .mk t r ss ns par =>
    flattenSectionList
      (ns.foldl FlatNotepad.addNote (acc.addSection ⟨t, r, parentRefOf par⟩)) ss

def flattenSectionList (acc : FlatNotepad) : List Section → FlatNotepad
  | [] => acc
  | s :: rest => flattenSectionList (flattenSection acc s) rest

end

/-- `Notepad.flatten`: start from a fresh FlatNotepad carrying the title,
timestamp and asset identifiers, then walk the tree depth-first. -/
def Notepad.flatten (p : Notepad) : FlatNotepad :=
  flattenSectionList ⟨p.title, p.lastModified, [], [], p.notepadAssets⟩ p.sections

/-- The flat sections whose `parentRef` is the given ref, in map order. -/
def childrenOf (secs : List (String × FlatSection)) (r : String) : List FlatSection :=
  (secs.map Prod.snd).filter (fun fs => fs.parentRef == some r)

/-- The flat sections with no `parentRef`, in map order. -/
def topLevelOf (secs : List (String × FlatSection)) : List FlatSection :=
  (secs.map Prod.snd).filter (fun fs => fs.parentRef == none)

/-- The flat notes whose parent link is the given ref, in map order. -/
def notesOf (nts : List (String × Note)) (r : String) : List Note :=
  (nts.map Prod.snd).filter (fun n => n.parent == some r)

/-- Modelled from the spec: rebuild one Section from its descriptor — its
children are the descriptors whose `parentRef` equals this ref, its notes
the flat notes whose parent link is this ref (attachment resets their back
references, as `addSection`/`addNote` do); the fuel bounds the
parent-chain depth, which a well-formed flat map cannot exhaust. -/
def buildSection (f : FlatNotepad) : Nat → FlatSection → Option Section
  | 0, _ => none
  | fuel + 1, fs =>
    match (childrenOf f.sections fs.internalRef).mapM (buildSection f fuel) with
    | none => none
    | some kids =>
      some (Section.mk fs.title fs.internalRef kids
        ((notesOf f.notes fs.internalRef).map
          (fun n => { n with parent := some fs.internalRef }))
        (some (match fs.parentRef with
               | none => .toNotepad
               | some r => .toSection r)))

/-- Modelled from the spec: `FlatNotepad.toNotepad` — fail when some
`parentRef` resolves to no known flat section; otherwise rebuild every
top-level section (and recursively its descendants) into a fresh Notepad. -/
def FlatNotepad.toNotepad (f : FlatNotepad) : Option Notepad :=
  if f.sections.all (fun kv =>
      match kv.2.parentRef with
      | none => true
      | some r => f.sections.any (fun kv2 => kv2.1 == r)) then
    match (topLevelOf f.sections).mapM (buildSection f (f.sections.length + 1)) with
    | none => none
    | some tops => some ⟨f.title, f.lastModified, tops, f.notepadAssets, []⟩
  else none

/-! ## Well-formedness: the §3 invariants -/

mutual

/-- Parent back-references match the structural position, and each note's
parent link is its owning section's ref. -/
def Section.wfAux (pl : PLink) : Section → Bool
  | .mk _ r ss ns par =>
    (par == some pl) && ns.all (fun n => n.parent == some r) &&
      Section.wfAuxList r ss

def Section.wfAuxList (r : String) : List Section → Bool
  | [] => true
  | s :: rest => Section.wfAux (.toSection r) s && Section.wfAuxList r rest

end

mutual

/-- All section refs of the subtree, in the depth-first emission order. -/
def Section.secRefs : Section → List String
  | .mk _ r ss _ _ => r :: secRefsList ss

def secRefsList : List Section → List String
  | [] => []
  | s :: rest => Section.secRefs s ++ secRefsList rest

end

mutual

/-- All note refs of the subtree, in the depth-first emission order. -/
def Section.noteRefs : Section → List String
  | .mk _ _ ss ns _ => ns.map Note.internalRef ++ noteRefsList ss

def noteRefsList : List Section → List String
  | [] => []
  | s :: rest => Section.noteRefs s ++ noteRefsList rest

end

/-- The §3 invariants: consistent back-references and globally unique
identifiers — guaranteed for every Notepad built through the public
operations. -/
def Notepad.wf (p : Notepad) : Prop :=
  (p.sections.all (Section.wfAux .toNotepad) = true) ∧
  (secRefsList p.sections).Nodup ∧ (noteRefsList p.sections).Nodup

instance (p : Notepad) : Decidable p.wf := by
  unfold Notepad.wf
  infer_instance

mutual

/-- The `(ref, descriptor)` entries `flatten` emits for a subtree. -/
def Section.flatSecList : Section → List (String × FlatSection)
  | .mk t r ss _ par => (r, ⟨t, r, parentRefOf par⟩) :: flatSecListL ss

def flatSecListL : List Section → List (String × FlatSection)
  | [] => []
  | s :: rest => Section.flatSecList s ++ flatSecListL rest

end

mutual

/-- The `(ref, note)` entries `flatten` emits for a subtree. -/
def Section.flatNoteList : Section → List (String × Note)
  | .mk _ _ ss ns _ => ns.map (fun n => (n.internalRef, n)) ++ flatNoteListL ss

def flatNoteListL : List Section → List (String × Note)
  | [] => []
  | s :: rest => Section.flatNoteList s ++ flatNoteListL rest

end

mutual

/-- Every node of a subtree, root first. -/
def Section.nodes : Section → List Section
  | .mk t r ss ns par => .mk t r ss ns par :: nodesL ss

def nodesL : List Section → List Section
  | [] => []
  | s :: rest => Section.nodes s ++ nodesL rest

end

mutual

def Section.height : Section → Nat
  | .mk _ _ ss _ _ => 1 + heightL ss

def heightL : List Section → Nat
  | [] => 0
  | s :: rest => max (Section.height s) (heightL rest)

end

/-! ### `flatten` in append normal form -/

mutual

theorem keys_flatSecList : ∀ (s : Section), s.flatSecList.map Prod.fst = s.secRefs
  | .mk t r ss ns par => by
    simp only [Section.flatSecList, Section.secRefs, List.map_cons,
      keys_flatSecListL ss]

theorem keys_flatSecListL :
    ∀ (L : List Section), (flatSecListL L).map Prod.fst = secRefsList L
  | [] => by simp [flatSecListL, secRefsList]
  | s :: rest => by
    simp only [flatSecListL, secRefsList, List.map_append, keys_flatSecList s,
      keys_flatSecListL rest]

end

mutual

theorem keys_flatNoteList : ∀ (s : Section), s.flatNoteList.map Prod.fst = s.noteRefs
  | .mk t r ss ns par => by
    simp only [Section.flatNoteList, Section.noteRefs, List.map_append,
      List.map_map, keys_flatNoteListL ss]
    rfl

theorem keys_flatNoteListL :
    ∀ (L : List Section), (flatNoteListL L).map Prod.fst = noteRefsList L
  | [] => by simp [flatNoteListL, noteRefsList]
  | s :: rest => by
    simp only [flatNoteListL, noteRefsList, List.map_append, keys_flatNoteList s,
      keys_flatNoteListL rest]

end

theorem insertStr_fresh {α : Type} (k : String) (v : α) :
    ∀ (m : List (String × α)), (∀ kv ∈ m, kv.1 ≠ k) →
      insertStr m k v = m ++ [(k, v)]
  | [], _ => rfl
  | (k0, v0) :: rest, h => by
    have hk : (k0 == k) = false := by
      have := h (k0, v0) (List.mem_cons_self _ _)
      simpa using this
    have hstep : insertStr ((k0, v0) :: rest) k v = (k0, v0) :: insertStr rest k v := by
      simp [insertStr, hk]
    rw [hstep, insertStr_fresh k v rest (fun kv hkv => h kv (List.mem_cons_of_mem _ hkv))]
    simp

theorem foldl_addNote_sections :
    ∀ (ns : List Note) (acc : FlatNotepad),
      (ns.foldl FlatNotepad.addNote acc).sections = acc.sections
  | [], acc => rfl
  | n :: rest, acc => by
    simp only [List.foldl_cons]
    rw [foldl_addNote_sections rest]
    rfl

theorem foldl_addNote_eq :
    ∀ (ns : List Note) (acc : FlatNotepad),
      (∀ n ∈ ns, ∀ kv ∈ acc.notes, kv.1 ≠ n.internalRef) →
      (ns.map Note.internalRef).Nodup →
      ns.foldl FlatNotepad.addNote acc =
        { acc with notes := acc.notes ++ ns.map (fun n => (n.internalRef, n)) }
  | [], acc => by
    intro _ _
    simp
  | n :: rest, acc => by
    intro hfresh hnd
    simp only [List.foldl_cons]
    have h1 : acc.addNote n = { acc with notes := acc.notes ++ [(n.internalRef, n)] } := by
      simp only [FlatNotepad.addNote]
      rw [insertStr_fresh _ _ _ (hfresh n (List.mem_cons_self _ _))]
    rw [h1]
    simp only [List.map_cons, List.nodup_cons] at hnd
    have h2 := foldl_addNote_eq rest { acc with notes := acc.notes ++ [(n.internalRef, n)] }
      (by
        intro n' hn' kv hkv
        rcases List.mem_append.mp hkv with hkv | hkv
        · exact hfresh n' (List.mem_cons_of_mem _ hn') kv hkv
        · rcases List.mem_singleton.mp hkv with rfl
          intro he
          apply hnd.1
          have he' : n.internalRef = n'.internalRef := he
          rw [he']
          exact List.mem_map_of_mem Note.internalRef hn')
      hnd.2
    rw [h2]
    simp

mutual

theorem flattenSection_eq : ∀ (s : Section) (acc : FlatNotepad),
    (∀ kv ∈ acc.sections, kv.1 ∉ s.secRefs) →
    (∀ kv ∈ acc.notes, kv.1 ∉ s.noteRefs) →
    s.secRefs.Nodup → s.noteRefs.Nodup →
    flattenSection acc s =
      { acc with sections := acc.sections ++ s.flatSecList,
                 notes := acc.notes ++ s.flatNoteList }
  | .mk t r ss ns par, acc => by
    intro hfs hfn hnds hndn
    simp only [Section.secRefs, Section.noteRefs] at hfs hfn hnds hndn
    simp only [flattenSection]
    have h1 : acc.addSection ⟨t, r, parentRefOf par⟩ =
        { acc with sections := acc.sections ++ [(r, ⟨t, r, parentRefOf par⟩)] } := by
      simp only [FlatNotepad.addSection]
      rw [insertStr_fresh _ _ _ (by
        intro kv hkv
        have := hfs kv hkv
        simp only [List.mem_cons] at this
        exact fun he => this (Or.inl he))]
    rw [h1]
    have hndn1 : (ns.map Note.internalRef).Nodup := (List.nodup_append.mp hndn).1
    have h2 := foldl_addNote_eq ns
      { acc with sections := acc.sections ++ [(r, ⟨t, r, parentRefOf par⟩)] }
      (by
        intro n hn kv hkv
        have := hfn kv hkv
        simp only [List.mem_append] at this
        exact fun he => this (Or.inl (he ▸ List.mem_map_of_mem Note.internalRef hn)))
      hndn1
    rw [h2]
    have hnds1 : (secRefsList ss).Nodup := (List.nodup_cons.mp hnds).2
    have hndn2 : (noteRefsList ss).Nodup := (List.nodup_append.mp hndn).2.1
    have h3 := flattenSectionList_eq ss
      { acc with
          sections := acc.sections ++ [(r, ⟨t, r, parentRefOf par⟩)]
          notes := acc.notes ++ ns.map (fun n => (n.internalRef, n)) }
      (by
        intro kv hkv
        rcases List.mem_append.mp hkv with hkv | hkv
        · have := hfs kv hkv
          simp only [List.mem_cons] at this
          exact fun he => this (Or.inr he)
        · rcases List.mem_singleton.mp hkv with rfl
          exact (List.nodup_cons.mp hnds).1)
      (by
        intro kv hkv
        rcases List.mem_append.mp hkv with hkv | hkv
        · have := hfn kv hkv
          simp only [List.mem_append] at this
          exact fun he => this (Or.inr he)
        · intro he
          have hkey : kv.1 ∈ ns.map Note.internalRef := by
            rcases List.mem_map.mp hkv with ⟨n, hn, rfl⟩
            exact List.mem_map_of_mem Note.internalRef hn
          exact (List.disjoint_of_nodup_append hndn) hkey he)
      hnds1 hndn2
    rw [h3]
    simp [Section.flatSecList, Section.flatNoteList, List.append_assoc]

theorem flattenSectionList_eq : ∀ (L : List Section) (acc : FlatNotepad),
    (∀ kv ∈ acc.sections, kv.1 ∉ secRefsList L) →
    (∀ kv ∈ acc.notes, kv.1 ∉ noteRefsList L) →
    (secRefsList L).Nodup → (noteRefsList L).Nodup →
    flattenSectionList acc L =
      { acc with sections := acc.sections ++ flatSecListL L,
                 notes := acc.notes ++ flatNoteListL L }
  | [], acc => by
    intro _ _ _ _
    simp [flattenSectionList, flatSecListL, flatNoteListL]
  | s :: rest, acc => by
    intro hfs hfn hnds hndn
    simp only [secRefsList, noteRefsList] at hfs hfn hnds hndn
    simp only [flattenSectionList]
    have h1 := flattenSection_eq s acc
      (fun kv hkv he => hfs kv hkv (List.mem_append.mpr (Or.inl he)))
      (fun kv hkv he => hfn kv hkv (List.mem_append.mpr (Or.inl he)))
      (List.nodup_append.mp hnds).1 (List.nodup_append.mp hndn).1
    rw [h1]
    have h2 := flattenSectionList_eq rest
      { acc with sections := acc.sections ++ s.flatSecList,
                 notes := acc.notes ++ s.flatNoteList }
      (by
        intro kv hkv
        rcases List.mem_append.mp hkv with hkv | hkv
        · exact fun he => hfs kv hkv (List.mem_append.mpr (Or.inr he))
        · intro he
          have hkey : kv.1 ∈ s.secRefs := by
            have := keys_flatSecList s
            rw [← this]
            exact List.mem_map_of_mem Prod.fst hkv
          exact (List.disjoint_of_nodup_append hnds) hkey he)
      (by
        intro kv hkv
        rcases List.mem_append.mp hkv with hkv | hkv
        · exact fun he => hfn kv hkv (List.mem_append.mpr (Or.inr he))
        · intro he
          have hkey : kv.1 ∈ s.noteRefs := by
            have := keys_flatNoteList s
            rw [← this]
            exact List.mem_map_of_mem Prod.fst hkv
          exact (List.disjoint_of_nodup_append hndn) hkey he)
      (List.nodup_append.mp hnds).2.1 (List.nodup_append.mp hndn).2.1
    rw [h2]
    simp [flatSecListL, flatNoteListL, List.append_assoc]

end

/-! ### Locating a subtree by ref -/

mutual

/-- The first node with the given ref, in depth-first order. -/
def subByRef (r : String) : Section → Option Section
  | .mk t r' ss ns par =>
    if r' == r then some (.mk t r' ss ns par) else subByRefL r ss

def subByRefL (r : String) : List Section → Option Section
  | [] => none
  | s :: rest =>
    match subByRef r s with
    | some u => some u
    | none => subByRefL r rest

end

mutual

theorem subByRef_eq_none :
    ∀ (s : Section) (r : String), subByRef r s = none ↔ r ∉ s.secRefs
  | .mk t r' ss ns par, r => by
    by_cases hr : (r' == r) = true
    · have hr' : r' = r := by simpa using hr
      simp [subByRef, hr, Section.secRefs, hr']
    · have hr' : ¬ r' = r := by simpa using hr
      have hrb : (r' == r) = false := by simpa using hr
      have hstep : subByRef r (Section.mk t r' ss ns par) = subByRefL r ss := by
        simp [subByRef, hrb]
      rw [hstep, subByRefL_eq_none ss r]
      simp only [Section.secRefs, List.mem_cons]
      constructor
      · intro h hmem
        rcases hmem with he | hm
        · exact hr' he.symm
        · exact h hm
      · intro h hm
        exact h (Or.inr hm)

theorem subByRefL_eq_none :
    ∀ (L : List Section) (r : String), subByRefL r L = none ↔ r ∉ secRefsList L
  | [], r => by simp [subByRefL, secRefsList]
  | s :: rest, r => by
    simp only [subByRefL, secRefsList, List.mem_append]
    cases hs : subByRef r s with
    | some u =>
      have : r ∈ s.secRefs := by
        by_contra hmem
        rw [← subByRef_eq_none s r] at hmem
        rw [hmem] at hs
        exact Option.noConfusion hs
      simp [this]
    | none =>
      have hmem : r ∉ s.secRefs := (subByRef_eq_none s r).mp hs
      rw [subByRefL_eq_none rest r]
      constructor
      · intro h hx
        rcases hx with hx | hx
        · exact hmem hx
        · exact h hx
      · intro h hx
        exact h (Or.inr hx)

end

theorem subByRef_some_mem (s : Section) (r : String) (u : Section)
    (h : subByRef r s = some u) : r ∈ s.secRefs := by
  by_contra hmem
  rw [← subByRef_eq_none s r] at hmem
  rw [hmem] at h
  exact Option.noConfusion h

theorem wfAuxList_iff (r : String) :
    ∀ (L : List Section),
      Section.wfAuxList r L = true ↔ ∀ s ∈ L, Section.wfAux (.toSection r) s = true
  | [] => by simp [Section.wfAuxList]
  | s :: rest => by
    simp only [Section.wfAuxList, Bool.and_eq_true, wfAuxList_iff r rest]
    constructor
    · rintro ⟨h1, h2⟩ x hx
      rcases List.mem_cons.mp hx with rfl | hx
      · exact h1
      · exact h2 x hx
    · intro h
      exact ⟨h s (List.mem_cons_self _ _), fun x hx => h x (List.mem_cons_of_mem _ hx)⟩

mutual

theorem ref_mem_of_nodes :
    ∀ (s u : Section), u ∈ s.nodes → u.internalRef ∈ s.secRefs
  | .mk t r ss ns par, u => by
    intro hu
    simp only [Section.nodes, List.mem_cons] at hu
    simp only [Section.secRefs, List.mem_cons]
    rcases hu with rfl | hu
    · exact Or.inl rfl
    · exact Or.inr (ref_mem_of_nodesL ss u hu)

theorem ref_mem_of_nodesL :
    ∀ (L : List Section) (u : Section), u ∈ nodesL L → u.internalRef ∈ secRefsList L
  | [], u => by simp [nodesL]
  | s :: rest, u => by
    intro hu
    simp only [nodesL, List.mem_append] at hu
    simp only [secRefsList, List.mem_append]
    rcases hu with hu | hu
    · exact Or.inl (ref_mem_of_nodes s u hu)
    · exact Or.inr (ref_mem_of_nodesL rest u hu)

end

mutual

theorem subByRef_nodes :
    ∀ (s u : Section), u ∈ s.nodes → s.secRefs.Nodup →
      subByRef u.internalRef s = some u
  | .mk t r ss ns par, u => by
    intro hu hnd
    simp only [Section.nodes, List.mem_cons] at hu
    simp only [Section.secRefs, List.nodup_cons] at hnd
    rcases hu with rfl | hu
    · simp [subByRef, Section.internalRef]
    · have hne : (r == u.internalRef) = false := by
        have hin := ref_mem_of_nodesL ss u hu
        have : r ≠ u.internalRef := fun he => hnd.1 (he ▸ hin)
        simpa using this
      simp only [subByRef, hne, if_false]
      exact subByRefL_nodes ss u hu hnd.2

theorem subByRefL_nodes :
    ∀ (L : List Section) (u : Section), u ∈ nodesL L → (secRefsList L).Nodup →
      subByRefL u.internalRef L = some u
  | [], u => by simp [nodesL]
  | s :: rest, u => by
    intro hu hnd
    simp only [nodesL, List.mem_append] at hu
    simp only [secRefsList] at hnd
    rcases hu with hu | hu
    · have := subByRef_nodes s u hu (List.nodup_append.mp hnd).1
      simp [subByRefL, this]
    · have hnone : subByRef u.internalRef s = none := by
        rw [subByRef_eq_none]
        intro hmem
        exact (List.disjoint_of_nodup_append hnd) hmem (ref_mem_of_nodesL rest u hu)
      simp only [subByRefL, hnone]
      exact subByRefL_nodes rest u hu (List.nodup_append.mp hnd).2.1

end

/-- The children descriptors contributed by an optional located subtree. -/
def optChild : Option Section → List FlatSection
  | some u => u.sections.map Section.toFlat
  | none => []

/-- The notes contributed by an optional located subtree. -/
def optNotes : Option Section → List Note
  | some u => u.notes
  | none => []

theorem headFilter_eq (t r' : String) (pl : PLink) (r : String) :
    (if (parentRefOf (some pl) == some r) = true
     then [(⟨t, r', parentRefOf (some pl)⟩ : FlatSection)] else []) =
      (if pl = .toSection r then [(⟨t, r', parentRefOf (some pl)⟩ : FlatSection)]
       else []) := by
  cases pl with
  | toNotepad => simp [parentRefOf]
  | toSection pr =>
    by_cases hpr : pr = r
    · simp [parentRefOf, hpr]
    · simp [parentRefOf, hpr, PLink.toSection.injEq]

mutual

theorem filterChildren_flatSecList :
    ∀ (s : Section) (pl : PLink) (r : String),
      Section.wfAux pl s = true → s.secRefs.Nodup →
      (∀ pr, pl = .toSection pr → pr ∉ s.secRefs) →
      ((s.flatSecList.map Prod.snd).filter (fun fs => fs.parentRef == some r)) =
        (if pl = .toSection r then [s.toFlat] else []) ++ optChild (subByRef r s)
  | .mk t r' ss ns par, pl, r => by
    intro hwf hnd hout
    simp only [Section.wfAux, Bool.and_eq_true, beq_iff_eq] at hwf
    obtain ⟨⟨hpar, hns⟩, hchild⟩ := hwf
    subst hpar
    simp only [Section.secRefs, List.nodup_cons] at hnd
    have hchild' := (wfAuxList_iff r' ss).mp hchild
    have htail := filterChildren_flatSecListL ss (.toSection r') r hchild' hnd.2
      (by
        intro pr heq
        injection heq with h
        rw [← h]
        exact hnd.1)
    simp only [Section.flatSecList, List.map_cons, List.filter_cons]
    rw [htail]
    by_cases hr : r' = r
    · subst hr
      have hsub : subByRefL r' ss = none := (subByRefL_eq_none ss r').mpr hnd.1
      have hself : subByRef r' (Section.mk t r' ss ns (some pl)) =
          some (Section.mk t r' ss ns (some pl)) := by
        simp [subByRef]
      rw [hsub, hself]
      cases pl with
      | toNotepad =>
        simp [parentRefOf, optChild, Section.toFlat, Section.sections]
      | toSection pr =>
        by_cases hpr : pr = r'
        · subst hpr
          simp [parentRefOf, optChild, Section.toFlat, Section.sections]
        · simp [parentRefOf, optChild, Section.toFlat, Section.sections, hpr,
            PLink.toSection.injEq]
    · have hself : subByRef r (Section.mk t r' ss ns (some pl)) = subByRefL r ss := by
        have hrb : (r' == r) = false := by simpa using hr
        simp [subByRef, hrb]
      rw [hself]
      cases pl with
      | toNotepad =>
        simp [parentRefOf, optChild, PLink.toSection.injEq, hr]
      | toSection pr =>
        by_cases hpr : pr = r
        · subst hpr
          simp [parentRefOf, optChild, Section.toFlat, PLink.toSection.injEq, hr]
        · simp [parentRefOf, optChild, Section.toFlat, PLink.toSection.injEq, hr, hpr]

theorem filterChildren_flatSecListL :
    ∀ (L : List Section) (pl : PLink) (r : String),
      (∀ s ∈ L, Section.wfAux pl s = true) → (secRefsList L).Nodup →
      (∀ pr, pl = .toSection pr → pr ∉ secRefsList L) →
      (((flatSecListL L).map Prod.snd).filter (fun fs => fs.parentRef == some r)) =
        (if pl = .toSection r then L.map Section.toFlat else []) ++
          optChild (subByRefL r L)
  | [], pl, r => by
    intro _ _ _
    simp [flatSecListL, subByRefL, optChild]
  | s :: rest, pl, r => by
    intro hwf hnd hout
    simp only [secRefsList] at hnd hout
    have hnd1 := (List.nodup_append.mp hnd).1
    have hnd2 := (List.nodup_append.mp hnd).2.1
    have hdisj := List.disjoint_of_nodup_append hnd
    have h1 := filterChildren_flatSecList s pl r (hwf s (List.mem_cons_self _ _)) hnd1
      (by
        intro pr he hmem
        exact hout pr he (List.mem_append.mpr (Or.inl hmem)))
    have h2 := filterChildren_flatSecListL rest pl r
      (fun x hx => hwf x (List.mem_cons_of_mem _ hx)) hnd2
      (by
        intro pr he hmem
        exact hout pr he (List.mem_append.mpr (Or.inr hmem)))
    simp only [flatSecListL, List.map_append, List.filter_append, h1, h2]
    by_cases hpl : pl = PLink.toSection r
    · have hmem : r ∉ s.secRefs ∧ r ∉ secRefsList rest := by
        constructor
        · exact fun hm => hout r hpl (List.mem_append.mpr (Or.inl hm))
        · exact fun hm => hout r hpl (List.mem_append.mpr (Or.inr hm))
      have hs1 : subByRef r s = none := (subByRef_eq_none s r).mpr hmem.1
      have hs2 : subByRefL r rest = none := (subByRefL_eq_none rest r).mpr hmem.2
      have hs3 : subByRefL r (s :: rest) = none := by
        simp [subByRefL, hs1, hs2]
      rw [hs1, hs2, hs3]
      simp [hpl, optChild]
    · cases hs : subByRef r s with
      | some u =>
        have hrs : r ∈ s.secRefs := subByRef_some_mem s r u hs
        have hs2 : subByRefL r rest = none :=
          (subByRefL_eq_none rest r).mpr (fun hm => hdisj hrs hm)
        have hs3 : subByRefL r (s :: rest) = some u := by
          simp [subByRefL, hs]
        rw [hs2, hs3]
        simp [hpl, optChild]
      | none =>
        have hs3 : subByRefL r (s :: rest) = subByRefL r rest := by
          simp [subByRefL, hs]
        rw [hs3]
        simp [hpl, optChild]

end

theorem map_snd_pairs (l : List Note) :
    (l.map (fun n => (n.internalRef, n))).map Prod.snd = l := by
  induction l with
  | nil => rfl
  | cons a t ih => simp only [List.map_cons, ih]

mutual

theorem filterNotes_flatNoteList :
    ∀ (s : Section) (pl : PLink) (r : String),
      Section.wfAux pl s = true → s.secRefs.Nodup →
      ((s.flatNoteList.map Prod.snd).filter (fun n => n.parent == some r)) =
        optNotes (subByRef r s)
  | .mk t r' ss ns par, pl, r => by
    intro hwf hnd
    simp only [Section.wfAux, Bool.and_eq_true, beq_iff_eq] at hwf
    obtain ⟨⟨hpar, hns⟩, hchild⟩ := hwf
    simp only [List.all_eq_true, beq_iff_eq] at hns
    simp only [Section.secRefs, List.nodup_cons] at hnd
    have hchild' := (wfAuxList_iff r' ss).mp hchild
    have htail := filterNotes_flatNoteListL ss (.toSection r') r hchild' hnd.2
    simp only [Section.flatNoteList, List.map_append, List.filter_append]
    rw [map_snd_pairs ns, htail]
    by_cases hr : r' = r
    · subst hr
      have hsub : subByRefL r' ss = none := (subByRefL_eq_none ss r').mpr hnd.1
      have hself : subByRef r' (Section.mk t r' ss ns par) =
          some (Section.mk t r' ss ns par) := by
        simp [subByRef]
      rw [hsub, hself]
      have hkeep : ns.filter (fun n => n.parent == some r') = ns :=
        List.filter_eq_self.mpr (by
          intro n hn
          simp [hns n hn])
      rw [hkeep]
      simp [optNotes, Section.notes]
    · have hself : subByRef r (Section.mk t r' ss ns par) = subByRefL r ss := by
        have hrb : (r' == r) = false := by simpa using hr
        simp [subByRef, hrb]
      rw [hself]
      have hdrop : ns.filter (fun n => n.parent == some r) = [] :=
        List.filter_eq_nil_iff.mpr (by
          intro n hn
          simp [hns n hn, hr])
      rw [hdrop]
      simp

theorem filterNotes_flatNoteListL :
    ∀ (L : List Section) (pl : PLink) (r : String),
      (∀ s ∈ L, Section.wfAux pl s = true) → (secRefsList L).Nodup →
      (((flatNoteListL L).map Prod.snd).filter (fun n => n.parent == some r)) =
        optNotes (subByRefL r L)
  | [], pl, r => by
    intro _ _
    simp [flatNoteListL, subByRefL, optNotes]
  | s :: rest, pl, r => by
    intro hwf hnd
    simp only [secRefsList] at hnd
    have hnd1 := (List.nodup_append.mp hnd).1
    have hnd2 := (List.nodup_append.mp hnd).2.1
    have hdisj := List.disjoint_of_nodup_append hnd
    have h1 := filterNotes_flatNoteList s pl r (hwf s (List.mem_cons_self _ _)) hnd1
    have h2 := filterNotes_flatNoteListL rest pl r
      (fun x hx => hwf x (List.mem_cons_of_mem _ hx)) hnd2
    simp only [flatNoteListL, List.map_append, List.filter_append, h1, h2]
    cases hs : subByRef r s with
    | some u =>
      have hrs : r ∈ s.secRefs := subByRef_some_mem s r u hs
      have hs2 : subByRefL r rest = none :=
        (subByRefL_eq_none rest r).mpr (fun hm => hdisj hrs hm)
      have hs3 : subByRefL r (s :: rest) = some u := by
        simp [subByRefL, hs]
      rw [hs2, hs3]
      simp [optNotes]
    | none =>
      have hs3 : subByRefL r (s :: rest) = subByRefL r rest := by
        simp [subByRefL, hs]
      rw [hs3]
      simp [optNotes]

end

mutual

theorem filterTop_flatSecList :
    ∀ (s : Section) (pl : PLink), Section.wfAux pl s = true →
      ((s.flatSecList.map Prod.snd).filter (fun fs => fs.parentRef == none)) =
        if pl = .toNotepad then [s.toFlat] else []
  | .mk t r' ss ns par, pl => by
    intro hwf
    simp only [Section.wfAux, Bool.and_eq_true, beq_iff_eq] at hwf
    obtain ⟨⟨hpar, hns⟩, hchild⟩ := hwf
    subst hpar
    have hchild' := (wfAuxList_iff r' ss).mp hchild
    have htail := filterTop_flatSecListL ss (.toSection r') hchild'
    simp only [Section.flatSecList, List.map_cons, List.filter_cons]
    rw [htail]
    cases pl with
    | toNotepad => simp [parentRefOf, Section.toFlat]
    | toSection pr => simp [parentRefOf, Section.toFlat]

theorem filterTop_flatSecListL :
    ∀ (L : List Section) (pl : PLink), (∀ s ∈ L, Section.wfAux pl s = true) →
      (((flatSecListL L).map Prod.snd).filter (fun fs => fs.parentRef == none)) =
        if pl = .toNotepad then L.map Section.toFlat else []
  | [], pl => by
    intro _
    simp [flatSecListL]
  | s :: rest, pl => by
    intro hwf
    have h1 := filterTop_flatSecList s pl (hwf s (List.mem_cons_self _ _))
    have h2 := filterTop_flatSecListL rest pl
      (fun x hx => hwf x (List.mem_cons_of_mem _ hx))
    simp only [flatSecListL, List.map_append, List.filter_append, h1, h2]
    cases pl with
    | toNotepad => simp
    | toSection pr => simp

end

mutual

theorem parentRef_src_flatSecList :
    ∀ (s : Section) (pl : PLink), Section.wfAux pl s = true →
      ∀ kv ∈ s.flatSecList, ∀ r, kv.2.parentRef = some r →
        pl = .toSection r ∨ r ∈ s.secRefs
  | .mk t r' ss ns par, pl => by
    intro hwf kv hkv r hr
    simp only [Section.wfAux, Bool.and_eq_true, beq_iff_eq] at hwf
    obtain ⟨⟨hpar, hns⟩, hchild⟩ := hwf
    subst hpar
    simp only [Section.flatSecList, List.mem_cons] at hkv
    rcases hkv with rfl | hkv
    · simp only at hr
      cases pl with
      | toNotepad => simp [parentRefOf] at hr
      | toSection pr =>
        left
        simp only [parentRefOf, Option.some_inj] at hr
        rw [hr]
    · have hchild' := (wfAuxList_iff r' ss).mp hchild
      rcases parentRef_src_flatSecListL ss (.toSection r') hchild' kv hkv r hr with h | h
      · injection h with h2
        right
        simp [Section.secRefs, ← h2]
      · right
        simp [Section.secRefs, h]

theorem parentRef_src_flatSecListL :
    ∀ (L : List Section) (pl : PLink), (∀ s ∈ L, Section.wfAux pl s = true) →
      ∀ kv ∈ flatSecListL L, ∀ r, kv.2.parentRef = some r →
        pl = .toSection r ∨ r ∈ secRefsList L
  | [], pl => by
    intro _ kv hkv
    simp [flatSecListL] at hkv
  | s :: rest, pl => by
    intro hwf kv hkv r hr
    simp only [flatSecListL, List.mem_append] at hkv
    rcases hkv with hkv | hkv
    · rcases parentRef_src_flatSecList s pl (hwf s (List.mem_cons_self _ _)) kv hkv r hr
        with h | h
      · exact Or.inl h
      · right
        simp [secRefsList, h]
    · rcases parentRef_src_flatSecListL rest pl
        (fun x hx => hwf x (List.mem_cons_of_mem _ hx)) kv hkv r hr with h | h
      · exact Or.inl h
      · right
        simp [secRefsList, h]

end

mutual

theorem flatSecList_entries :
    ∀ (s : Section) (kv : String × FlatSection), kv ∈ s.flatSecList →
      ∃ u, u ∈ s.nodes ∧ kv = (u.internalRef, u.toFlat)
  | .mk t r' ss ns par, kv => by
    intro hkv
    simp only [Section.flatSecList, List.mem_cons] at hkv
    rcases hkv with rfl | hkv
    · exact ⟨.mk t r' ss ns par, by simp [Section.nodes],
        by simp [Section.internalRef, Section.toFlat]⟩
    · obtain ⟨u, hu, he⟩ := flatSecListL_entries ss kv hkv
      exact ⟨u, by simp [Section.nodes, List.mem_cons, hu], he⟩

theorem flatSecListL_entries :
    ∀ (L : List Section) (kv : String × FlatSection), kv ∈ flatSecListL L →
      ∃ u, u ∈ nodesL L ∧ kv = (u.internalRef, u.toFlat)
  | [], kv => by
    intro hkv
    simp [flatSecListL] at hkv
  | s :: rest, kv => by
    intro hkv
    simp only [flatSecListL, List.mem_append] at hkv
    rcases hkv with hkv | hkv
    · obtain ⟨u, hu, he⟩ := flatSecList_entries s kv hkv
      exact ⟨u, by simp [nodesL, List.mem_append, hu], he⟩
    · obtain ⟨u, hu, he⟩ := flatSecListL_entries rest kv hkv
      exact ⟨u, by simp [nodesL, List.mem_append, hu], he⟩

end

mutual

theorem wfAux_nodes :
    ∀ (s : Section) (pl : PLink), Section.wfAux pl s = true →
      ∀ u ∈ s.nodes, (∃ plu, u.parent = some plu) ∧
        (∀ n ∈ u.notes, n.parent = some u.internalRef)
  | .mk t r' ss ns par, pl => by
    intro hwf u hu
    simp only [Section.wfAux, Bool.and_eq_true, beq_iff_eq] at hwf
    obtain ⟨⟨hpar, hns⟩, hchild⟩ := hwf
    simp only [List.all_eq_true, beq_iff_eq] at hns
    simp only [Section.nodes, List.mem_cons] at hu
    rcases hu with rfl | hu
    · exact ⟨⟨pl, by simp [Section.parent, hpar]⟩, by
        intro n hn
        simp only [Section.notes] at hn
        simp [Section.internalRef, hns n hn]⟩
    · exact wfAux_nodesL ss (.toSection r') ((wfAuxList_iff r' ss).mp hchild) u hu

theorem wfAux_nodesL :
    ∀ (L : List Section) (pl : PLink),
      (∀ s ∈ L, Section.wfAux pl s = true) →
      ∀ u ∈ nodesL L, (∃ plu, u.parent = some plu) ∧
        (∀ n ∈ u.notes, n.parent = some u.internalRef)
  | [], pl => by
    intro _ u hu
    simp [nodesL] at hu
  | s :: rest, pl => by
    intro hwf u hu
    simp only [nodesL, List.mem_append] at hu
    rcases hu with hu | hu
    · exact wfAux_nodes s pl (hwf s (List.mem_cons_self _ _)) u hu
    · exact wfAux_nodesL rest pl (fun x hx => hwf x (List.mem_cons_of_mem _ hx)) u hu

end

mutual

theorem height_le_len :
    ∀ (s : Section), s.height ≤ s.flatSecList.length
  | .mk t r' ss ns par => by
    simp only [Section.height, Section.flatSecList, List.length_cons]
    have := heightL_le_len ss
    omega

theorem heightL_le_len :
    ∀ (L : List Section), heightL L ≤ (flatSecListL L).length
  | [] => by simp [heightL, flatSecListL]
  | s :: rest => by
    simp only [heightL, flatSecListL, List.length_append]
    have h1 := height_le_len s
    have h2 := heightL_le_len rest
    omega

end

theorem height_of_mem_le :
    ∀ (L : List Section) (s : Section), s ∈ L → s.height ≤ heightL L
  | [], s => by
    intro hs
    simp at hs
  | s0 :: rest, s => by
    intro hs
    rcases List.mem_cons.mp hs with rfl | hs
    · simp only [heightL]
      omega
    · have := height_of_mem_le rest s hs
      simp only [heightL]
      omega

theorem note_setParent_self (n : Note) (r : String) (h : n.parent = some r) :
    { n with parent := some r } = n := by
  cases n
  simp_all

theorem mapM_option_cons {α β : Type} (g : α → Option β) (a : α) (l : List α)
    (b : β) (bs : List β) (h1 : g a = some b) (h2 : l.mapM g = some bs) :
    (a :: l).mapM g = some (b :: bs) := by
  rw [List.mapM_cons, h1, h2]
  rfl

/-- The per-node facts `buildSection` needs from the flat environment. -/
def goodAt (f : FlatNotepad) (u : Section) : Prop :=
  childrenOf f.sections u.internalRef = u.sections.map Section.toFlat ∧
  notesOf f.notes u.internalRef = u.notes ∧
  (∀ n ∈ u.notes, n.parent = some u.internalRef) ∧
  (∃ plu, u.parent = some plu)

mutual

theorem buildSection_ok :
    ∀ (s : Section) (f : FlatNotepad) (fuel : Nat), s.height ≤ fuel →
      (∀ u ∈ s.nodes, goodAt f u) →
      buildSection f fuel s.toFlat = some s
  | .mk t r ss ns par, f, fuel => by
    intro hfuel hgood
    have hh : (Section.mk t r ss ns par).height = 1 + heightL ss := by
      simp [Section.height]
    obtain ⟨fuel', rfl⟩ : ∃ fuel', fuel = fuel' + 1 := ⟨fuel - 1, by omega⟩
    have hself : (Section.mk t r ss ns par) ∈ (Section.mk t r ss ns par).nodes := by
      simp [Section.nodes]
    obtain ⟨hch, hnotes, hnp, plu, hpar⟩ := hgood _ hself
    simp only [Section.internalRef, Section.sections, Section.notes,
      Section.parent] at hch hnotes hnp hpar
    subst hpar
    have hmapM := buildSection_ok_list ss f fuel' (by omega)
      (fun u hu => hgood u (by
        simp only [Section.nodes, List.mem_cons]
        exact Or.inr hu))
    have hnsmap : ns.map (fun n => { n with parent := some r }) = ns := by
      have := List.map_congr_left (l := ns)
        (f := fun n => { n with parent := some r }) (g := id)
        (fun n hn => note_setParent_self n r (hnp n hn))
      rw [this, List.map_id]
    have hparent :
        (match parentRefOf (some plu) with
         | none => PLink.toNotepad
         | some r2 => PLink.toSection r2) = plu := by
      cases plu <;> simp [parentRefOf]
    simp only [Section.toFlat, buildSection, hch, hmapM, hnotes, hnsmap, hparent]

theorem buildSection_ok_list :
    ∀ (L : List Section) (f : FlatNotepad) (fuel : Nat), heightL L ≤ fuel →
      (∀ u ∈ nodesL L, goodAt f u) →
      (L.map Section.toFlat).mapM (buildSection f fuel) = some L
  | [], f, fuel => by
    intro _ _
    rfl
  | s :: rest, f, fuel => by
    intro hfuel hgood
    have hhl : heightL (s :: rest) = max s.height (heightL rest) := by
      simp [heightL]
    have h1 := buildSection_ok s f fuel (by omega)
      (fun u hu => hgood u (by
        simp only [nodesL, List.mem_append]
        exact Or.inl hu))
    have h2 := buildSection_ok_list rest f fuel (by omega)
      (fun u hu => hgood u (by
        simp only [nodesL, List.mem_append]
        exact Or.inr hu))
    simp only [List.map_cons]
    exact mapM_option_cons _ _ _ _ _ h1 h2

end

theorem toNotepad_eval (title lm : String) (E : List (String × FlatSection))
    (EN : List (String × Note)) (na : List String)
    (hres : (E.all (fun kv => match kv.2.parentRef with
      | none => true
      | some r => E.any (fun kv2 => kv2.1 == r))) = true)
    (tops : List Section)
    (hmap : (topLevelOf E).mapM
      (buildSection ⟨title, lm, E, EN, na⟩ (E.length + 1)) = some tops) :
    FlatNotepad.toNotepad ⟨title, lm, E, EN, na⟩ = some ⟨title, lm, tops, na, []⟩ := by
  unfold FlatNotepad.toNotepad
  simp only [hres, if_true]
  rw [hmap]

/-! ## Claim C1 -/

/-- C1: for every well-formed Notepad (the §3 invariants, guaranteed by
construction through the public operations), `flatten` followed by
`toNotepad` reproduces the tree: the very same top-level section list —
hence the same `internalRef` set, the same parent/child relationships, and
every note's elements, bibliography and content — plus the title,
timestamp and in-use asset identifiers. -/
theorem claim1_roundtrip (p : Notepad) (hwf : p.wf) :
    ∃ p', (p.flatten).toNotepad = some p' ∧
      p'.sections = p.sections ∧ p'.title = p.title ∧
      p'.lastModified = p.lastModified ∧ p'.notepadAssets = p.notepadAssets := by
  obtain ⟨hall, hnds, hndn⟩ := hwf
  have hall' : ∀ s ∈ p.sections, Section.wfAux PLink.toNotepad s = true := by
    intro s hs
    exact List.all_eq_true.mp hall s hs
  have hflat : p.flatten = ⟨p.title, p.lastModified, flatSecListL p.sections,
      flatNoteListL p.sections, p.notepadAssets⟩ := by
    unfold Notepad.flatten
    rw [flattenSectionList_eq p.sections _
      (by intro kv h; simp at h) (by intro kv h; simp at h) hnds hndn]
    simp
  have hgood : ∀ u ∈ nodesL p.sections,
      goodAt ⟨p.title, p.lastModified, flatSecListL p.sections,
        flatNoteListL p.sections, p.notepadAssets⟩ u := by
    intro u hu
    have hsub := subByRefL_nodes p.sections u hu hnds
    have hnf := wfAux_nodesL p.sections PLink.toNotepad hall' u hu
    refine ⟨?_, ?_, hnf.2, hnf.1⟩
    · show childrenOf (flatSecListL p.sections) u.internalRef = _
      unfold childrenOf
      rw [filterChildren_flatSecListL p.sections PLink.toNotepad u.internalRef hall'
        hnds (fun pr h => PLink.noConfusion h), hsub]
      simp [optChild]
    · show notesOf (flatNoteListL p.sections) u.internalRef = _
      unfold notesOf
      rw [filterNotes_flatNoteListL p.sections PLink.toNotepad u.internalRef hall'
        hnds, hsub]
      simp [optNotes]
  have hresolve : ((flatSecListL p.sections).all (fun kv =>
      match kv.2.parentRef with
      | none => true
      | some r => (flatSecListL p.sections).any (fun kv2 => kv2.1 == r))) = true := by
    rw [List.all_eq_true]
    intro kv hkv
    cases hpr : kv.2.parentRef with
    | none => simp [hpr]
    | some r =>
      rcases parentRef_src_flatSecListL p.sections PLink.toNotepad hall' kv hkv r hpr
        with h | h
      · exact PLink.noConfusion h
      · simp only [hpr]
        rw [List.any_eq_true]
        have hk : r ∈ (flatSecListL p.sections).map Prod.fst := by
          rw [keys_flatSecListL]
          exact h
        obtain ⟨kv2, hkv2, he⟩ := List.mem_map.mp hk
        exact ⟨kv2, hkv2, by simp [he]⟩
  have htop : topLevelOf (flatSecListL p.sections) = p.sections.map Section.toFlat := by
    unfold topLevelOf
    rw [filterTop_flatSecListL p.sections PLink.toNotepad hall']
    simp
  have hmapM := buildSection_ok_list p.sections
    ⟨p.title, p.lastModified, flatSecListL p.sections, flatNoteListL p.sections,
      p.notepadAssets⟩ ((flatSecListL p.sections).length + 1)
    (by
      have := heightL_le_len p.sections
      omega) hgood
  have hmap2 : (topLevelOf (flatSecListL p.sections)).mapM
      (buildSection ⟨p.title, p.lastModified, flatSecListL p.sections,
        flatNoteListL p.sections, p.notepadAssets⟩
        ((flatSecListL p.sections).length + 1)) = some p.sections := by
    rw [htop]
    exact hmapM
  refine ⟨⟨p.title, p.lastModified, p.sections, p.notepadAssets, []⟩, ?_, rfl, rfl,
    rfl, rfl⟩
  rw [hflat]
  exact toNotepad_eval p.title p.lastModified _ _ _ hresolve p.sections hmap2

def noteA : Note := ⟨"note A", 1, [⟨"markdown", "hello", [("id", "markdown1")]⟩],
  [⟨1, "markdown1", "src"⟩], "nrA", none⟩

def noteB : Note := ⟨"note B", 2, [], [], "nrB", none⟩

def innerSec : Section := Section.addNote (Section.mk "inner" "s2" [] [] none) noteB

def outerSec : Section :=
  Section.addSection (Section.addNote (Section.mk "outer" "s1" [] [] none) noteA)
    innerSec

/-- A two-level notepad built through the public operations. -/
def demoPad : Notepad :=
  Notepad.addSection (Notepad.mk "pad" "2020-01-01" [] ["u0"] []) outerSec

/-- C1 witness: the round trip evaluated on the two-level notepad. -/
theorem claim1_witness :
    ∃ p', (demoPad.flatten).toNotepad = some p' ∧
      p'.sections = demoPad.sections ∧ p'.title = demoPad.title ∧
      p'.lastModified = demoPad.lastModified ∧
      p'.notepadAssets = demoPad.notepadAssets :=
  claim1_roundtrip demoPad (by decide)

/-! ## Claim C4 -/

mutual

theorem mem_sections_flattenSection :
    ∀ (s : Section) (acc : FlatNotepad) (kv : String × FlatSection),
      kv ∈ (flattenSection acc s).sections → kv ∈ acc.sections ∨ kv ∈ s.flatSecList
  | .mk t r ss ns par, acc, kv => by
    intro hkv
    simp only [flattenSection] at hkv
    rcases mem_sections_flattenSectionList ss _ kv hkv with h | h
    · rw [foldl_addNote_sections] at h
      simp only [FlatNotepad.addSection] at h
      rcases mem_insertStr _ _ _ kv h with h2 | h2
      · exact Or.inl h2
      · right
        rw [h2]
        simp [Section.flatSecList]
    · right
      simp [Section.flatSecList, h]

theorem mem_sections_flattenSectionList :
    ∀ (L : List Section) (acc : FlatNotepad) (kv : String × FlatSection),
      kv ∈ (flattenSectionList acc L).sections → kv ∈ acc.sections ∨ kv ∈ flatSecListL L
  | [], acc, kv => by
    intro hkv
    simp only [flattenSectionList] at hkv
    exact Or.inl hkv
  | s :: rest, acc, kv => by
    intro hkv
    simp only [flattenSectionList] at hkv
    rcases mem_sections_flattenSectionList rest _ kv hkv with h | h
    · rcases mem_sections_flattenSection s acc kv h with h2 | h2
      · exact Or.inl h2
      · right
        simp [flatSecListL, h2]
    · right
      simp [flatSecListL, h]

end

theorem self_entry_mem_flatSecListL :
    ∀ (L : List Section) (s : Section), s ∈ L →
      (s.internalRef, s.toFlat) ∈ flatSecListL L
  | [], s => by
    intro hs
    simp at hs
  | s0 :: rest, s => by
    intro hs
    rcases List.mem_cons.mp hs with rfl | hs
    · simp only [flatSecListL, List.mem_append]
      left
      cases s
      simp [Section.flatSecList, Section.internalRef, Section.toFlat]
    · simp only [flatSecListL, List.mem_append]
      exact Or.inr (self_entry_mem_flatSecListL rest s hs)

theorem toFlat_parentRef (s : Section) : s.toFlat.parentRef = parentRefOf s.parent := by
  cases s
  simp [Section.toFlat, Section.parent]

/-- C4: a descriptor emitted by `flatten` carries `parentRef = some r`
exactly for a flattened section whose stored parent back-reference is the
Section with ref `r`; and under the §3 invariants every top-level section's
descriptor is emitted with no `parentRef`. -/
theorem claim4_flatten_parentRef (p : Notepad) :
    (∀ kv ∈ (p.flatten).sections, ∀ r, kv.2.parentRef = some r →
       ∃ u, u ∈ nodesL p.sections ∧ kv = (u.internalRef, u.toFlat) ∧
         u.parent = some (.toSection r)) ∧
    (p.wf → ∀ s ∈ p.sections,
       (s.internalRef, s.toFlat) ∈ (p.flatten).sections ∧
       s.toFlat.parentRef = none) := by
  constructor
  · intro kv hkv r hr
    unfold Notepad.flatten at hkv
    rcases mem_sections_flattenSectionList p.sections _ kv hkv with h | h
    · simp at h
    · obtain ⟨u, hu, he⟩ := flatSecListL_entries p.sections kv h
      refine ⟨u, hu, he, ?_⟩
      rw [he] at hr
      simp only [toFlat_parentRef] at hr
      cases hpu : u.parent with
      | none => rw [hpu] at hr; simp [parentRefOf] at hr
      | some plu =>
        cases plu with
        | toNotepad => rw [hpu] at hr; simp [parentRefOf] at hr
        | toSection r2 =>
          rw [hpu] at hr
          simp only [parentRefOf, Option.some_inj] at hr
          rw [hr]
  · intro hwf s hs
    obtain ⟨hall, hnds, hndn⟩ := hwf
    have hall' : ∀ x ∈ p.sections, Section.wfAux PLink.toNotepad x = true := by
      intro x hx
      exact List.all_eq_true.mp hall x hx
    have hflat : p.flatten = ⟨p.title, p.lastModified, flatSecListL p.sections,
        flatNoteListL p.sections, p.notepadAssets⟩ := by
      unfold Notepad.flatten
      rw [flattenSectionList_eq p.sections _
        (by intro kv h; simp at h) (by intro kv h; simp at h) hnds hndn]
      simp
    constructor
    · rw [hflat]
      exact self_entry_mem_flatSecListL p.sections s hs
    · have hx := hall' s hs
      cases s with
      | mk t r ss ns par =>
        simp only [Section.wfAux, Bool.and_eq_true, beq_iff_eq] at hx
        obtain ⟨⟨hpar, _⟩, _⟩ := hx
        simp [Section.toFlat, hpar, parentRefOf]

/-- C4 witness: the emitted descriptors of the two-level notepad. -/
theorem claim4_witness :
    ((outerSec.setParent (some .toNotepad)).internalRef,
      (outerSec.setParent (some .toNotepad)).toFlat) ∈ (demoPad.flatten).sections ∧
    ((outerSec.setParent (some .toNotepad)).toFlat).parentRef = none :=
  (claim4_flatten_parentRef demoPad).2 (by decide)
    (outerSec.setParent (some .toNotepad)) (by decide)
